import Mathlib

/-!
Shallow embedding of the BMP-Image-compression codec core (src/lz77.py,
src/huffman.py, src/helper.py).  Byte buffers are modelled as `List Nat`
whose elements are below 256 (Python `bytes`); fallible Python code
(code that can raise `IndexError` / `TypeError` / `struct.error`) is
modelled with `Option`, where `none` stands for an uncaught exception.
Loops whose Python form is `while`-based are written with an explicit
fuel argument that bounds the number of iterations; the fuel passed by
the wrapper definitions is always sufficient, which the lemmas below
establish, so the wrappers compute exactly the Python loops.
-/

namespace BMP

namespace LZ

/-- Inner `while` loop of `find_longest_match` (src/lz77.py lines 31-38):
starting from run length `k`, extend the match while `pos + k < e` and
`data[i + k] == data[pos + k]`; after each extension, break if
`i + k >= pos`.  The fuel `e - pos` bounds the iteration count. -/
def matchLenF (data : List Nat) (i pos e : Nat) : Nat → Nat → Nat
  | 0, k => k
  | fuel + 1, k =>
    if pos + k < e ∧ data.getD (i + k) 0 = data.getD (pos + k) 0 then
      if pos ≤ i + (k + 1) then k + 1
      else matchLenF data i pos e fuel (k + 1)
    else k

/-- Run length of the match that starts at window index `i`, compared
against the lookahead starting at `pos`, bounded by `e`. -/
def matchLenAt (data : List Nat) (i pos e : Nat) : Nat :=
  matchLenF data i pos e (e - pos) 0

/-- The `for i in range(lo, pos)` scan of `find_longest_match`
(src/lz77.py lines 30-42): fold keeping `(best_match_length,
best_match_offset)`, updating only on a strictly longer match. -/
def scanBest (data : List Nat) (pos e : Nat) (idxs : List Nat) : Nat × Nat :=
  idxs.foldl
    (fun best i =>
      let m := matchLenAt data i pos e
      if best.1 < m then (m, pos - i) else best)
    (0, 0)

/-- Embedding of `find_longest_match(data, current_pos, window_size,
lookahead_buffer_size)` returning `(offset, length, next_char)`.
Indexing in the source is always in bounds (established by the lemmas
below), so `getD` is used. -/
def find_longest_match (data : List Nat) (current_pos window_size lookahead_buffer_size : Nat) :
    Nat × Nat × Option Nat :=
  let e := min (current_pos + lookahead_buffer_size) data.length
  if data.length ≤ current_pos then (0, 0, none)
  else
    let next_char : Option Nat := if e = data.length then none else some (data.getD e 0)
    if e ≤ current_pos then (0, 0, next_char)
    else
      let lo := current_pos - window_size
      let best := scanBest data current_pos e (List.range' lo (current_pos - lo))
      (best.2, best.1,
        if current_pos + best.1 < data.length then some (data.getD (current_pos + best.1) 0)
        else none)

/-- One value of `variable_length_encode` (src/lz77.py lines 62-71):
one byte when below 128, otherwise the two bytes
`[(value >> 8) | 0x80, value & 0xFF]`. -/
def encodeValue (value : Nat) : List Nat :=
  if value < 128 then [value] else [(value >>> 8) ||| 0x80, value &&& 0xFF]

/-- Embedding of `variable_length_encode(offset, length)`. -/
def variable_length_encode (offset length : Nat) : List Nat :=
  encodeValue offset ++ encodeValue length

/-- One value of `variable_length_decode`: reads `data[pos]` (and
`data[pos+1]` in the two-byte form); a read past the end of the buffer
is Python `IndexError`, modelled as `none`. -/
def decodeValue (data : List Nat) (pos : Nat) : Option (Nat × Nat) :=
  match data.get? pos with
  | none => none
  | some b =>
    if b < 128 then some (b, pos + 1)
    else
      match data.get? (pos + 1) with
      | none => none
      | some b1 => some (((b &&& 0x7F) <<< 8) ||| b1, pos + 2)

/-- Embedding of `variable_length_decode(data, pos)` returning
`(offset, length, new_position)`. -/
def variable_length_decode (data : List Nat) (pos : Nat) : Option (Nat × Nat × Nat) :=
  match decodeValue data pos with
  | none => none
  | some (offset, pos1) =>
    match decodeValue data pos1 with
    | none => none
    | some (length, pos2) => some (offset, length, pos2)

/-- The LZ77 metadata dictionary: `{'compressed': False}` carries no
window fields, hence the `Option` fields. -/
structure LzMeta where
  window_size : Option Nat := none
  lookahead_buffer_size : Option Nat := none
  compressed : Bool
deriving DecidableEq

/-- The `while current_pos < len(data)` loop of `compress_lz77`
(src/lz77.py lines 123-127), fuel-indexed; each iteration emits the
encoded `(offset, length)` pair followed by the literal byte
(`next_char` or the `0xFF` sentinel when at end of input) and advances
by `length + 1`. -/
def compressLoopF (data : List Nat) (w l : Nat) : Nat → Nat → List Nat
  | 0, _ => []
  | fuel + 1, current_pos =>
    if current_pos < data.length then
      let m := find_longest_match data current_pos w l
      variable_length_encode m.1 m.2.1 ++
        m.2.2.getD 0xFF :: compressLoopF data w l fuel (current_pos + m.2.1 + 1)
    else []

/-- The compression loop started at `current_pos` with sufficient fuel. -/
def compressLoop (data : List Nat) (w l current_pos : Nat) : List Nat :=
  compressLoopF data w l (data.length - current_pos) current_pos

/-- Embedding of `compress_lz77(data, window_size,
lookahead_buffer_size)` (src/lz77.py lines 104-136). -/
def compress_lz77 (data : List Nat) (window_size lookahead_buffer_size : Nat) :
    List Nat × LzMeta :=
  if data.length < 50 then (data, { compressed := false })
  else
    let result := compressLoop data window_size lookahead_buffer_size 0
    if result.length < data.length then
      (result,
        { window_size := some window_size,
          lookahead_buffer_size := some lookahead_buffer_size,
          compressed := true })
    else (data, { compressed := false })

/-- Python `result[-offset]` on the growing output buffer: for
`offset = 0` this is `result[0]` (Python `-0 == 0`); for
`0 < offset <= len(result)` it is `result[len(result) - offset]`;
otherwise `IndexError`, modelled as `none`. -/
def backByte (result : List Nat) (offset : Nat) : Option Nat :=
  if offset = 0 then result.get? 0
  else if offset ≤ result.length then result.get? (result.length - offset)
  else none

/-- The `for _ in range(length): result.append(result[-offset])` copy
loop of `decompress_lz77` (src/lz77.py lines 166-167). -/
def copyLoop (result : List Nat) (offset : Nat) : Nat → Option (List Nat)
  | 0 => some result
  | n + 1 =>
    match backByte result offset with
    | none => none
    | some b => copyLoop (result ++ [b]) offset n

/-- The `while pos < len(compressed_data)` loop of `decompress_lz77`
(src/lz77.py lines 155-169), fuel-indexed.  `next_char` is `None` when
the stream ends right after the pair, and Python's
`result.append(None)` (a `TypeError`) is modelled as `none`. -/
def decompressLoopF (cd : List Nat) : Nat → Nat → List Nat → Option (List Nat)
  | 0, _, result => some result
  | fuel + 1, pos, result =>
    if pos < cd.length then
      match variable_length_decode cd pos with
      | none => none
      | some (offset, length, pos2) =>
        let next_char : Option Nat := if pos2 < cd.length then some (cd.getD pos2 0) else none
        let appendLit : List Nat → Option (List Nat) := fun r =>
          match next_char with
          | none => none
          | some c => some (if c = 255 then r else r ++ [c])
        if offset = 0 ∧ length = 0 then
          match appendLit result with
          | none => none
          | some r => decompressLoopF cd fuel (pos2 + 1) r
        else
          match copyLoop result offset length with
          | none => none
          | some r1 =>
            match appendLit r1 with
            | none => none
            | some r => decompressLoopF cd fuel (pos2 + 1) r
    else some result

/-- The decompression loop started at `pos` with sufficient fuel (each
iteration advances `pos` by at least 3). -/
def decompressLoop (cd : List Nat) (pos : Nat) (result : List Nat) : Option (List Nat) :=
  decompressLoopF cd (cd.length - pos) pos result

/-- Embedding of `decompress_lz77(compressed_data, metadata)`
(src/lz77.py lines 138-171). -/
def decompress_lz77 (compressed_data : List Nat) (metadata : LzMeta) : Option (List Nat) :=
  if metadata.compressed = false then some compressed_data
  else decompressLoop compressed_data 0 []

/-- Number of tokens emitted by the compression loop from `pos` whose
literal byte is a genuine data byte `0xFF` (that is, `next_char` from
`find_longest_match` is `0xFF`, as opposed to the end-of-input
sentinel).  Mirrors the recursion of `compressLoopF`. -/
def ffCountF (data : List Nat) (w l : Nat) : Nat → Nat → Nat
  | 0, _ => 0
  | fuel + 1, pos =>
    if pos < data.length then
      let m := find_longest_match data pos w l
      (if m.2.2 = some 255 then 1 else 0) + ffCountF data w l fuel (pos + m.2.1 + 1)
    else 0

/-- Count of genuine `0xFF` literals in the token stream from `pos`. -/
def ffCount (data : List Nat) (w l pos : Nat) : Nat :=
  ffCountF data w l (data.length - pos) pos

end LZ

namespace Huff

/-- A Huffman code table: symbols paired with their bit strings
(Python strings of '0'/'1' characters become `List Bool`,
'1' = `true`).  Python's `dict` is modelled as an association list in
insertion order; all dictionaries the source builds have distinct
keys. -/
abbrev Tbl := List (Nat × List Bool)

/-- Embedding of `build_frequency_table` / `collections.Counter`:
association list from symbol to count, keys in first-occurrence
order. -/
def build_frequency_table (data : List Nat) : List (Nat × Nat) :=
  data.foldl
    (fun acc b =>
      if acc.any (fun p => p.1 == b) then
        acc.map (fun p => if p.1 = b then (p.1, p.2 + 1) else p)
      else acc ++ [(b, 1)])
    []

/-- A heap entry `[weight, [symbol, code], ...]` of
`build_huffman_tree`. -/
abbrev Node := Nat × Tbl

/-- Python string comparison restricted to '0'/'1' strings ('0' < '1',
a proper leading substring is smaller). -/
def bitsLt : List Bool → List Bool → Bool
  | _, [] => false
  | [], _ :: _ => true
  | a :: as, b :: bs => (!a && b) || (a == b && bitsLt as bs)

/-- Python comparison of two `[symbol, code]` lists. -/
def pairLt (p q : Nat × List Bool) : Bool :=
  decide (p.1 < q.1) || (p.1 == q.1 && bitsLt p.2 q.2)

/-- Python lexicographic comparison of the `[symbol, code]` tails of
two heap entries. -/
def pairsLt : Tbl → Tbl → Bool
  | _, [] => false
  | [], _ :: _ => true
  | p :: ps, q :: qs => pairLt p q || (p == q && pairsLt ps qs)

/-- Python comparison of two heap entries `[weight] + pairs`: weight
first, then the pair lists. -/
def nodeLt (m n : Node) : Bool :=
  decide (m.1 < n.1) || (m.1 == n.1 && pairsLt m.2 n.2)

/-- Minimum of a nonempty collection of heap entries with respect to
`nodeLt` (the element `heapq.heappop` returns; entries are pairwise
distinct so the minimum is unique). -/
def minNode (x : Node) : List Node → Node
  | [] => x
  | y :: ys => if nodeLt y x then minNode y ys else minNode x ys

/-- `heapq.heappop`: remove and return the minimum entry. -/
def popMin (heap : List Node) : Option (Node × List Node) :=
  match heap with
  | [] => none
  | x :: xs =>
    let m := minNode x xs
    some (m, (x :: xs).erase m)

/-- The merge step of `build_huffman_tree` (src/huffman.py lines
33-38): prefix every code of the lighter node with '0', of the heavier
with '1', and combine with summed weight. -/
def mergeNodes (lo hi : Node) : Node :=
  (lo.1 + hi.1,
    lo.2.map (fun p => (p.1, false :: p.2)) ++ hi.2.map (fun p => (p.1, true :: p.2)))

/-- The `while len(heap) > 1` merge loop of `build_huffman_tree`,
fuel-indexed (the heap shrinks by one entry per iteration). -/
def buildLoopF : Nat → List Node → List Node
  | 0, heap => heap
  | fuel + 1, heap =>
    if 1 < heap.length then
      match popMin heap with
      | none => heap
      | some (lo, rest1) =>
        match popMin rest1 with
        | none => heap
        | some (hi, rest2) => buildLoopF fuel (mergeNodes lo hi :: rest2)
    else heap

/-- Embedding of `build_huffman_tree(freq_table)` (src/huffman.py lines
16-40).  The single-symbol special case returns `[1, [symbol, "0"]]`;
an empty frequency table makes Python's final `heap[0]` raise
`IndexError`, modelled as `none`. -/
def build_huffman_tree (freq_table : List (Nat × Nat)) : Option Node :=
  let heap : List Node := freq_table.map (fun sw => (sw.2, [(sw.1, ([] : List Bool))]))
  if heap.length = 1 then
    match heap with
    | (_, (symbol, _) :: _) :: _ => some (1, [(symbol, [false])])
    | _ => none
  else (buildLoopF heap.length heap).head?

/-- Embedding of `build_huffman_codes(huffman_tree)`: the dictionary
over `huffman_tree[1:]` (symbols are distinct, so the association list
is the dictionary). -/
def build_huffman_codes (huffman_tree : Node) : Tbl := huffman_tree.2

/-- One packed byte of `serialize_tree` (src/huffman.py line 72):
`sum((1 << (7-j)) * (code[i+j] == '1') for j in range(8) if i+j < len(code))`,
for the chunk `bs = code[i:i+8]`. -/
def byteOfBits (bs : List Bool) : Nat :=
  (List.range 8).foldl (fun acc j => acc + if bs.getD j false then 2 ^ (7 - j) else 0) 0

/-- The `for i in range(0, len(code), 8)` packing loop, fuel-indexed
(eight bits consumed per iteration).  Also the byte-packing of
`int(binary_string[i:i+8], 2)` in `efficient_binary_string_to_bytes`,
which computes the same bytes on its zero-padded input. -/
def packBitsF : Nat → List Bool → List Nat
  | 0, _ => []
  | _ + 1, [] => []
  | fuel + 1, b :: bs => byteOfBits ((b :: bs).take 8) :: packBitsF fuel ((b :: bs).drop 8)

/-- MSB-first packing of a bit string into bytes, zero-padding the last
byte. -/
def packBits (bits : List Bool) : List Nat := packBitsF bits.length bits

/-- Embedding of `serialize_tree(codes)` (src/huffman.py lines 54-74):
2-byte little-endian entry count, then per entry the symbol byte, the
code bit-length byte and the packed code bits.  (Python's
`to_bytes(2, 'little')` raises `OverflowError` above 65535 and
`bytearray.append` above 255; every caller below stays in range, where
`% 256` is the identity on the high byte and absent on small
values.) -/
def serialize_tree (codes : Tbl) : List Nat :=
  codes.length % 256 :: codes.length / 256 % 256 ::
    (codes.map (fun sc => sc.1 :: sc.2.length :: packBits sc.2)).flatten

/-- Bit `i` of the packed code area starting at `pos`
(src/huffman.py line 90): `data[pos + i//8] & (1 << (7 - i%8))`;
reading past the end is `IndexError`, modelled as `none`. -/
def readBitAt (data : List Nat) (pos i : Nat) : Option Bool :=
  match data.get? (pos + i / 8) with
  | none => none
  | some b => some (b.testBit (7 - i % 8))

/-- The `for i in range(code_length)` bit-reading comprehension of
`deserialize_tree`, reading bits `i, i+1, ..., i+n-1`. -/
def readCodeBitsGo (data : List Nat) (pos : Nat) : Nat → Nat → Option (List Bool)
  | _, 0 => some []
  | i, n + 1 =>
    match readBitAt data pos i with
    | none => none
    | some bit =>
      match readCodeBitsGo data pos (i + 1) n with
      | none => none
      | some rest => some (bit :: rest)

/-- The code bits of one deserialized entry. -/
def readCodeBits (data : List Nat) (pos n : Nat) : Option (List Bool) :=
  readCodeBitsGo data pos 0 n

/-- The `for _ in range(count)` loop of `deserialize_tree`
(src/huffman.py lines 87-93): per entry read the symbol byte, the
code-length byte and the packed code bits, then advance by
`(code_length + 7) // 8`. -/
def deserializeLoop (data : List Nat) : Nat → Nat → Option Tbl
  | _, 0 => some []
  | pos, n + 1 =>
    match data.get? pos, data.get? (pos + 1) with
    | some symbol, some code_length =>
      match readCodeBits data (pos + 2) code_length with
      | none => none
      | some code =>
        match deserializeLoop data (pos + 2 + (code_length + 7) / 8) n with
        | none => none
        | some rest => some ((symbol, code) :: rest)
    | _, _ => none

/-- Embedding of `deserialize_tree(data)` (src/huffman.py lines 76-94).
`int.from_bytes(data[0:2], 'little')` never raises (slices clamp),
hence the `getD`. -/
def deserialize_tree (data : List Nat) : Option Tbl :=
  deserializeLoop data 2 (data.getD 0 0 + 256 * data.getD 1 0)

/-- Embedding of `efficient_binary_string_to_bytes(binary_string)`
(src/huffman.py lines 96-108): zero-pad to a byte boundary, pack, and
return the packed bytes with the padding bit count. -/
def efficient_binary_string_to_bytes (binary_string : List Bool) : List Nat × Nat :=
  let padding := if binary_string.length % 8 = 0 then 0 else 8 - binary_string.length % 8
  (packBits (binary_string ++ List.replicate padding false), padding)

/-- Python `format(byte, '08b')` for a value below 256: the eight bits
most significant first. -/
def bitsOfByte (b : Nat) : List Bool :=
  [b.testBit 7, b.testBit 6, b.testBit 5, b.testBit 4,
   b.testBit 3, b.testBit 2, b.testBit 1, b.testBit 0]

/-- Embedding of `efficient_bytes_to_binary_string(data, padding)`
(src/huffman.py lines 110-122): concatenate the bit strings of all
bytes and strip the trailing `padding` bits (`result[:-padding]` when
`padding` is nonzero). -/
def efficient_bytes_to_binary_string (data : List Nat) (padding : Nat) : List Bool :=
  let result := (data.map bitsOfByte).flatten
  if padding = 0 then result else result.take (result.length - padding)

/-- The Huffman metadata dictionary; `{'compressed': False}` carries no
code table and no padding, hence the defaults (never read in that
case). -/
structure HMeta where
  huffman_codes : List Nat := []
  padding : Nat := 0
  compressed : Bool
deriving DecidableEq

/-- Python `codes[byte]`: dictionary lookup in the code table
(`KeyError`, i.e. a byte absent from the table, is `none`). -/
def lookupCode (codes : Tbl) (b : Nat) : Option (List Bool) :=
  (codes.find? (fun p => p.1 == b)).map (fun p => p.2)

/-- The `''.join(codes[byte] for byte in data)` encoding loop of
`compress_huffman`. -/
def encodeData (codes : Tbl) : List Nat → Option (List Bool)
  | [] => some []
  | b :: bs =>
    match lookupCode codes b, encodeData codes bs with
    | some c, some rest => some (c ++ rest)
    | _, _ => none

/-- Embedding of `compress_huffman(data)` (src/huffman.py lines
124-150). -/
def compress_huffman (data : List Nat) : Option (List Nat × HMeta) :=
  if data.length < 100 then some (data, { compressed := false })
  else
    match build_huffman_tree (build_frequency_table data) with
    | none => none
    | some tree =>
      let codes := build_huffman_codes tree
      match encodeData codes data with
      | none => none
      | some encoded =>
        let packed := efficient_binary_string_to_bytes encoded
        let tree_bytes := serialize_tree codes
        if data.length ≤ packed.1.length + tree_bytes.length + 10 then
          some (data, { compressed := false })
        else
          some (packed.1,
            { huffman_codes := tree_bytes, padding := packed.2, compressed := true })

/-- The inverse dictionary `{code: symbol for symbol, code in
codes.items()}` of `decompress_huffman`, as a lookup: on duplicate
codes the later entry wins, hence the `reverse`. -/
def invLookup (codes : Tbl) (code : List Bool) : Option Nat :=
  (codes.reverse.find? (fun p => p.2 == code)).map (fun p => p.1)

/-- The greedy bit-consuming loop of `decompress_huffman`
(src/huffman.py lines 170-175): grow the accumulated code one bit at a
time, emit a symbol and reset whenever the accumulator is a key of the
inverse dictionary.  A trailing partial code is discarded, as in the
source. -/
def greedyDecode (codes : Tbl) : List Bool → List Bool → List Nat
  | [], _ => []
  | bit :: bits, acc =>
    match invLookup codes (acc ++ [bit]) with
    | some symbol => symbol :: greedyDecode codes bits []
    | none => greedyDecode codes bits (acc ++ [bit])

/-- Embedding of `decompress_huffman(compressed_data, metadata)`
(src/huffman.py lines 152-176). -/
def decompress_huffman (compressed_data : List Nat) (metadata : HMeta) : Option (List Nat) :=
  if metadata.compressed = false then some compressed_data
  else
    match deserialize_tree metadata.huffman_codes with
    | none => none
    | some codes =>
      some (greedyDecode codes
        (efficient_bytes_to_binary_string compressed_data metadata.padding) [])

/-- One bit string is an initial segment of another (not necessarily
proper). -/
def IsPfx (a b : List Bool) : Prop := ∃ t, a ++ t = b

/-- No entry's code is an initial segment of another entry's code, in
either direction (in particular all codes are distinct). -/
def PrefixFree (codes : Tbl) : Prop :=
  codes.Pairwise (fun p q => ¬ IsPfx p.2 q.2 ∧ ¬ IsPfx q.2 p.2)

/-- The combined metadata `{'lz77': ..., 'huffman': ...}`. -/
structure CombinedMeta where
  lz77 : LZ.LzMeta
  huffman : HMeta
deriving DecidableEq

/-- Embedding of `combined_compress(data)` (src/huffman.py lines
203-219): LZ77 with the default window 4096 and lookahead 128, then
Huffman. -/
def combined_compress (data : List Nat) : Option (List Nat × CombinedMeta) :=
  let lz := LZ.compress_lz77 data 4096 128
  match compress_huffman lz.1 with
  | none => none
  | some hm => some (hm.1, { lz77 := lz.2, huffman := hm.2 })

/-- Embedding of `combined_decompress(compressed_data, metadata)`
(src/huffman.py lines 221-234): Huffman decoding first, then LZ77. -/
def combined_decompress (compressed_data : List Nat) (metadata : CombinedMeta) :
    Option (List Nat) :=
  match decompress_huffman compressed_data metadata.huffman with
  | none => none
  | some huffman_decoded => LZ.decompress_lz77 huffman_decoded metadata.lz77

end Huff

namespace Container

/-- The record `load_compressed_file` returns as its metadata
dictionary (src/helper.py lines 119-125). -/
structure ContainerMeta where
  width : Nat
  height : Nat
  channels : Nat
  header_data : List Nat
  encoding_metadata : List Nat
deriving DecidableEq

/-- Python `f.read(n)` on a file whose remaining contents start at
`pos`: returns at most `n` bytes and the new position, silently short
when fewer than `n` bytes remain. -/
def readBytes (f : List Nat) (pos n : Nat) : List Nat × Nat :=
  ((f.drop pos).take n, min (pos + n) f.length)

/-- Python `struct.unpack('<I', f.read(4))[0]`: little-endian u32;
`struct.error` (fewer than 4 bytes remaining) is modelled as `none`. -/
def readU32 (f : List Nat) (pos : Nat) : Option (Nat × Nat) :=
  match readBytes f pos 4 with
  | ([b0, b1, b2, b3], pos') => some (b0 + 256 * b1 + 65536 * b2 + 16777216 * b3, pos')
  | _ => none

/-- Python `struct.unpack('<B', f.read(1))[0]`. -/
def readU8 (f : List Nat) (pos : Nat) : Option (Nat × Nat) :=
  match readBytes f pos 1 with
  | ([b0], pos') => some (b0, pos')
  | _ => none

/-- Embedding of `load_compressed_file` (src/helper.py lines 97-128).
The fixed-size `struct.unpack` reads raise `struct.error` on short
reads (caught by the source's `except`, which returns `(None, None)`,
modelled as `none`); the three length-prefixed `f.read(length)` calls
never fail and silently return fewer bytes when the prefix exceeds
what remains.  The source unpacks width and height from one
`f.read(8)`; two 4-byte reads succeed and fail in exactly the same
cases with the same values. -/
def load_compressed_file (f : List Nat) : Option (List Nat × ContainerMeta) :=
  match readU32 f 0 with
  | none => none
  | some (width, p1) =>
  match readU32 f p1 with
  | none => none
  | some (height, p2) =>
  match readU8 f p2 with
  | none => none
  | some (channels, p3) =>
  match readU32 f p3 with
  | none => none
  | some (header_len, p4) =>
  let rh := readBytes f p4 header_len
  match readU32 f rh.2 with
  | none => none
  | some (meta_len, p5) =>
  let rm := readBytes f p5 meta_len
  match readU32 f rm.2 with
  | none => none
  | some (payload_len, p6) =>
  let rp := readBytes f p6 payload_len
  some (rp.1,
    { width := width, height := height, channels := channels,
      header_data := rh.1, encoding_metadata := rm.1 })

end Container

end BMP

/-! ### Variable-length integer encoding: lemmas -/

namespace BMP.LZ

theorem and_255_eq (v : Nat) : v &&& 255 = v % 256 := by
  simpa using Nat.and_pow_two_sub_one_eq_mod v 8

theorem and_127_eq (v : Nat) : v &&& 127 = v % 128 := by
  simpa using Nat.and_pow_two_sub_one_eq_mod v 7

theorem lor_128_eq {h : Nat} (hh : h < 128) : h ||| 128 = h + 128 := by
  have h1 := @Nat.mul_add_lt_is_or 7 h (by simpa using hh) 1
  norm_num at h1
  rw [Nat.lor_comm]
  omega

theorem shiftLeft8_lor {q r : Nat} (hr : r < 256) : (q <<< 8) ||| r = q * 256 + r := by
  have h1 := @Nat.mul_add_lt_is_or 8 r (by simpa using hr) q
  rw [Nat.shiftLeft_eq, Nat.mul_comm q (2 ^ 8), ← h1]

theorem shiftRight8_eq (v : Nat) : v >>> 8 = v / 256 := by
  simpa using Nat.shiftRight_eq_div_pow v 8

theorem encodeValue_length (v : Nat) :
    (encodeValue v).length = if v < 128 then 1 else 2 := by
  unfold encodeValue; split <;> simp

theorem encodeValue_bytes {v : Nat} (hv : v ≤ 32767) : ∀ b ∈ encodeValue v, b < 256 := by
  unfold encodeValue
  split
  · intro b hb; simp at hb; omega
  · intro b hb
    simp only [List.mem_cons, List.mem_singleton] at hb
    rcases hb with rfl | rfl | h
    · rw [shiftRight8_eq, lor_128_eq (by omega)]; omega
    · rw [and_255_eq]; omega
    · simp at h

theorem get?_append_at (A L : List Nat) (i : Nat) :
    (A ++ L).get? (A.length + i) = L.get? i := by
  rw [List.get?_append_right (by omega)]; simp

theorem decodeValue_none {d : List Nat} {p : Nat} (h0 : d.get? p = none) :
    decodeValue d p = none := by
  unfold decodeValue; rw [h0]

theorem decodeValue_eq_of_get? {d : List Nat} {p b : Nat} (h0 : d.get? p = some b) :
    decodeValue d p =
      (if b < 128 then some (b, p + 1)
       else
        match d.get? (p + 1) with
        | none => none
        | some b1 => some (((b &&& 0x7F) <<< 8) ||| b1, p + 2)) := by
  unfold decodeValue; rw [h0]

theorem decodeValue_small {d : List Nat} {p b : Nat} (h0 : d.get? p = some b)
    (hb : b < 128) : decodeValue d p = some (b, p + 1) := by
  rw [decodeValue_eq_of_get? h0, if_pos hb]

theorem decodeValue_big {d : List Nat} {p b b1 : Nat} (h0 : d.get? p = some b)
    (hb : ¬ b < 128) (h1 : d.get? (p + 1) = some b1) :
    decodeValue d p = some (((b &&& 0x7F) <<< 8) ||| b1, p + 2) := by
  rw [decodeValue_eq_of_get? h0, if_neg hb, h1]

/-- Decoding right after an encoded value recovers it and lands exactly
past its bytes, for any surrounding stream. -/
theorem decodeValue_encode (A B : List Nat) {v : Nat} (hv : v ≤ 32767) :
    decodeValue (A ++ (encodeValue v ++ B)) A.length =
      some (v, A.length + (encodeValue v).length) := by
  by_cases h : v < 128
  · unfold encodeValue
    simp only [if_pos h]
    have h0 : (A ++ ([v] ++ B)).get? (A.length + 0) = some v := by
      rw [get?_append_at]; rfl
    simp only [Nat.add_zero] at h0
    rw [decodeValue_small h0 h]
    simp
  · unfold encodeValue
    simp only [if_neg h]
    have hdiv : v >>> 8 = v / 256 := shiftRight8_eq v
    have hdivlt : v / 256 < 128 := by omega
    have hhival : (v >>> 8) ||| 0x80 = v / 256 + 128 := by
      rw [hdiv]; exact lor_128_eq hdivlt
    have h0 : (A ++ ([(v >>> 8) ||| 0x80, v &&& 0xFF] ++ B)).get? (A.length + 0) =
        some ((v >>> 8) ||| 0x80) := by
      rw [get?_append_at]; rfl
    have h1 : (A ++ ([(v >>> 8) ||| 0x80, v &&& 0xFF] ++ B)).get? (A.length + 1) =
        some (v &&& 0xFF) := by
      rw [get?_append_at]; rfl
    simp only [Nat.add_zero] at h0
    have hge : ¬ ((v >>> 8) ||| 0x80 < 128) := by omega
    rw [decodeValue_big h0 hge h1]
    have hand : ((v >>> 8) ||| 0x80) &&& 0x7F = v / 256 := by
      rw [hhival, and_127_eq]; omega
    have hlow : v &&& 0xFF < 256 := by rw [and_255_eq]; omega
    rw [hand, shiftLeft8_lor hlow, and_255_eq]
    have hval : v / 256 * 256 + v % 256 = v := by omega
    rw [hval]
    simp

theorem decodeValue_lt {d : List Nat} {p v q : Nat}
    (h : decodeValue d p = some (v, q)) : p < q := by
  rcases hg : d.get? p with _ | b
  · rw [decodeValue_none hg] at h; exact absurd h (by simp)
  · rw [decodeValue_eq_of_get? hg] at h
    split at h
    · rw [Option.some_inj, Prod.mk.injEq] at h
      omega
    · rcases hg1 : d.get? (p + 1) with _ | b1 <;> rw [hg1] at h <;> simp at h
      omega

theorem variable_length_decode_lt {d : List Nat} {p o l q : Nat}
    (h : variable_length_decode d p = some (o, l, q)) : p + 2 ≤ q := by
  unfold variable_length_decode at h
  rcases h0 : decodeValue d p with _ | ⟨v0, p1⟩ <;> rw [h0] at h <;> simp at h
  rcases h1 : decodeValue d p1 with _ | ⟨v1, p2⟩ <;> rw [h1] at h <;> simp at h
  have l0 := decodeValue_lt h0
  have l1 := decodeValue_lt h1
  omega

theorem variable_length_decode_eq_of_first {d : List Nat} {p o p1 : Nat}
    (h0 : decodeValue d p = some (o, p1)) :
    variable_length_decode d p =
      (match decodeValue d p1 with
       | none => none
       | some (length, pos2) => some (o, length, pos2)) := by
  unfold variable_length_decode; rw [h0]

theorem variable_length_decode_eq_both {d : List Nat} {p o p1 l p2 : Nat}
    (h0 : decodeValue d p = some (o, p1)) (h1 : decodeValue d p1 = some (l, p2)) :
    variable_length_decode d p = some (o, l, p2) := by
  rw [variable_length_decode_eq_of_first h0, h1]

/-- Decoding an encoded pair right after an arbitrary earlier part of
the stream recovers the pair and advances exactly past its bytes. -/
theorem variable_length_decode_encode (A B : List Nat) {o l : Nat}
    (ho : o ≤ 32767) (hl : l ≤ 32767) :
    variable_length_decode (A ++ (variable_length_encode o l ++ B)) A.length =
      some (o, l, A.length + (variable_length_encode o l).length) := by
  unfold variable_length_encode
  have e1 : A ++ ((encodeValue o ++ encodeValue l) ++ B) =
      A ++ (encodeValue o ++ (encodeValue l ++ B)) := by simp
  rw [e1]
  have h0 := decodeValue_encode A (encodeValue l ++ B) ho
  have h2 := decodeValue_encode (A ++ encodeValue o) B hl
  rw [List.length_append] at h2
  have e2 : (A ++ encodeValue o) ++ (encodeValue l ++ B) =
      A ++ (encodeValue o ++ (encodeValue l ++ B)) := by simp
  rw [e2] at h2
  rw [variable_length_decode_eq_both h0 h2]
  simp [Nat.add_assoc]

end BMP.LZ


/-! ### Match finder: lemmas -/

namespace BMP.LZ

theorem get?_eq_ite (L : List Nat) (n : Nat) :
    L.get? n = if n < L.length then some (L.getD n 0) else none := by
  rcases h2 : L.get? n with _ | x
  · rw [List.get?_eq_none] at h2
    rw [if_neg (by omega)]
  · have hn : n < L.length := by
      by_contra hc
      have hnone := List.get?_eq_none.mpr (by omega : L.length ≤ n)
      rw [hnone] at h2
      exact absurd h2 (by simp)
    rw [if_pos hn, List.getD_eq_get?, h2]
    rfl

theorem matchLenF_le (data : List Nat) (i pos e : Nat) :
    ∀ fuel k, matchLenF data i pos e fuel k ≤ k + fuel := by
  intro fuel
  induction fuel with
  | zero => intro k; simp [matchLenF]
  | succ f ih =>
    intro k
    simp only [matchLenF]
    split
    · split
      · omega
      · have := ih (k + 1); omega
    · omega

theorem matchLenF_spec (data : List Nat) (i pos e : Nat) :
    ∀ fuel k, i + k < pos →
      (∀ j, k ≤ j → j < matchLenF data i pos e fuel k →
        pos + j < e ∧ data.getD (i + j) 0 = data.getD (pos + j) 0)
      ∧ k ≤ matchLenF data i pos e fuel k
      ∧ i + matchLenF data i pos e fuel k ≤ pos := by
  intro fuel
  induction fuel with
  | zero =>
    intro k hk
    simp only [matchLenF]
    refine ⟨?_, le_refl _, by omega⟩
    intro j hj hj2
    omega
  | succ f ih =>
    intro k hk
    simp only [matchLenF]
    split
    next hcond =>
      split
      next hbreak =>
        refine ⟨?_, by omega, by omega⟩
        intro j hj hj2
        have hjk : j = k := by omega
        subst hjk
        exact ⟨hcond.1, hcond.2⟩
      next hbreak =>
        have hk1 : i + (k + 1) < pos := by omega
        obtain ⟨ha, hb, hc⟩ := ih (k + 1) hk1
        refine ⟨?_, by omega, hc⟩
        intro j hj hj2
        rcases eq_or_lt_of_le hj with rfl | hlt
        · exact ⟨hcond.1, hcond.2⟩
        · exact ha j (by omega) hj2
    next hcond =>
      refine ⟨?_, le_refl _, by omega⟩
      intro j hj hj2
      omega

theorem matchLenAt_le (data : List Nat) (i pos e : Nat) :
    matchLenAt data i pos e ≤ e - pos := by
  have := matchLenF_le data i pos e (e - pos) 0
  unfold matchLenAt
  omega

theorem matchLenAt_spec (data : List Nat) {i pos : Nat} (e : Nat) (hip : i < pos) :
    (∀ j, j < matchLenAt data i pos e →
        pos + j < e ∧ data.getD (i + j) 0 = data.getD (pos + j) 0)
    ∧ i + matchLenAt data i pos e ≤ pos := by
  obtain ⟨ha, _, hc⟩ := matchLenF_spec data i pos e (e - pos) 0 (by omega)
  exact ⟨fun j hj => ha j (by omega) hj, hc⟩

theorem scanBest_nil (data : List Nat) (pos e : Nat) : scanBest data pos e [] = (0, 0) := rfl

theorem scanBest_concat (data : List Nat) (pos e : Nat) (idxs : List Nat) (a : Nat) :
    scanBest data pos e (idxs ++ [a]) =
      (if (scanBest data pos e idxs).1 < matchLenAt data a pos e
       then (matchLenAt data a pos e, pos - a) else scanBest data pos e idxs) := by
  unfold scanBest
  rw [List.foldl_append]
  rfl

/-- The scan over the window indices returns either no match at all
(and then no index matches), or the match of the first index attaining
the maximal run length. -/
theorem scanBest_range'_spec (data : List Nat) (pos e lo : Nat) : ∀ n,
    (scanBest data pos e (List.range' lo n) = (0, 0)
       ∧ ∀ i, lo ≤ i → i < lo + n → matchLenAt data i pos e = 0)
    ∨ (∃ i, lo ≤ i ∧ i < lo + n
       ∧ scanBest data pos e (List.range' lo n) = (matchLenAt data i pos e, pos - i)
       ∧ 0 < matchLenAt data i pos e
       ∧ (∀ j, lo ≤ j → j < lo + n → matchLenAt data j pos e ≤ matchLenAt data i pos e)
       ∧ (∀ j, lo ≤ j → j < i → matchLenAt data j pos e < matchLenAt data i pos e)) := by
  intro n
  induction n with
  | zero =>
    left
    exact ⟨rfl, fun i h1 h2 => by omega⟩
  | succ m ih =>
    rw [List.range'_concat, scanBest_concat]
    simp only [one_mul]
    rcases ih with ⟨heq, hall⟩ | ⟨i, hi1, hi2, heq, hposm, hmax, hfirst⟩
    · rw [heq]
      by_cases hM : 0 < matchLenAt data (lo + m) pos e
      · rw [if_pos (by simpa using hM)]
        right
        refine ⟨lo + m, by omega, by omega, rfl, hM, ?_, ?_⟩
        · intro j h1 h2
          rcases Nat.lt_or_ge j (lo + m) with hj | hj
          · rw [hall j h1 hj]; omega
          · have : j = lo + m := by omega
            subst this; exact le_refl _
        · intro j h1 h2
          rw [hall j h1 h2]; exact hM
      · rw [if_neg (by simpa using hM)]
        left
        refine ⟨rfl, ?_⟩
        intro j h1 h2
        rcases Nat.lt_or_ge j (lo + m) with hj | hj
        · exact hall j h1 hj
        · have : j = lo + m := by omega
          subst this; omega
    · rw [heq]
      by_cases hM : matchLenAt data i pos e < matchLenAt data (lo + m) pos e
      · rw [if_pos hM]
        right
        refine ⟨lo + m, by omega, by omega, rfl, by omega, ?_, ?_⟩
        · intro j h1 h2
          rcases Nat.lt_or_ge j (lo + m) with hj | hj
          · have := hmax j h1 hj; omega
          · have : j = lo + m := by omega
            subst this; exact le_refl _
        · intro j h1 h2
          have := hmax j h1 (by omega); omega
      · rw [if_neg hM]
        right
        refine ⟨i, hi1, by omega, rfl, hposm, ?_, hfirst⟩
        intro j h1 h2
        rcases Nat.lt_or_ge j (lo + m) with hj | hj
        · exact hmax j h1 hj
        · have : j = lo + m := by omega
          subst this; omega

/-- Full specification of `find_longest_match` at a position inside the
input, with a nonempty lookahead: the returned match references only
already-seen data (`len ≤ off ≤ min pos w`), stays inside the lookahead
and the buffer, agrees byte for byte with the lookahead, and the
returned next character is exactly `data[pos + len]` when in bounds. -/
theorem find_longest_match_spec (data : List Nat) {pos w l : Nat} (hl : 1 ≤ l)
    (hpos : pos < data.length) :
    ∃ off len,
      find_longest_match data pos w l = (off, len, data.get? (pos + len))
      ∧ len ≤ off ∧ off ≤ pos ∧ off ≤ w ∧ len ≤ l ∧ pos + len ≤ data.length
      ∧ (len = 0 → off = 0)
      ∧ (∀ j, j < len → data.getD (pos - off + j) 0 = data.getD (pos + j) 0) := by
  have h1 : ¬ data.length ≤ pos := by omega
  have hemin : pos < min (pos + l) data.length := by omega
  simp only [find_longest_match]
  rw [if_neg h1, if_neg (by omega)]
  set e := min (pos + l) data.length with he
  rcases scanBest_range'_spec data pos e (pos - w) (pos - (pos - w)) with
    ⟨heq, _⟩ | ⟨i, hi1, hi2, heq, hposm, hmax, _⟩
  · refine ⟨0, 0, ?_, ?_, ?_, ?_, ?_, ?_, ?_, ?_⟩ <;> try omega
    rw [heq]
    simp only []
    rw [get?_eq_ite]
  · have hipos : i < pos := by omega
    obtain ⟨hagree, hbound⟩ := matchLenAt_spec data e hipos
    have hle := matchLenAt_le data i pos e
    refine ⟨pos - i, matchLenAt data i pos e, ?_, by omega, by omega, by omega, by omega,
      by omega, by omega, ?_⟩
    · rw [heq]
      simp only []
      rw [get?_eq_ite]
    · intro j hj
      have hpi : pos - (pos - i) = i := by omega
      rw [hpi]
      exact (hagree j hj).2

end BMP.LZ

/-! ### Compression and decompression loops: unfolding lemmas -/

namespace BMP.LZ

theorem get?_some_of_lt {L : List Nat} {n : Nat} (h : n < L.length) :
    L.get? n = some (L.getD n 0) := by
  rw [get?_eq_ite, if_pos h]

theorem getD_mem_of_lt {L : List Nat} {n : Nat} (h : n < L.length) : L.getD n 0 ∈ L :=
  List.get?_mem (get?_some_of_lt h)

theorem compressLoopF_irrel (data : List Nat) (w l : Nat) :
    ∀ f1 f2 pos, data.length ≤ pos + f1 → data.length ≤ pos + f2 →
      compressLoopF data w l f1 pos = compressLoopF data w l f2 pos := by
  intro f1
  induction f1 with
  | zero =>
    intro f2 pos h1 h2
    cases f2 with
    | zero => rfl
    | succ g2 =>
      simp only [compressLoopF]
      rw [if_neg (by omega)]
  | succ g1 ih =>
    intro f2 pos h1 h2
    cases f2 with
    | zero =>
      simp only [compressLoopF]
      rw [if_neg (by omega)]
    | succ g2 =>
      simp only [compressLoopF]
      by_cases hp : pos < data.length
      · rw [if_pos hp, if_pos hp]
        rw [ih g2 (pos + (find_longest_match data pos w l).2.1 + 1) (by omega) (by omega)]
      · rw [if_neg hp, if_neg hp]

theorem compressLoop_stop {data : List Nat} {w l pos : Nat} (h : data.length ≤ pos) :
    compressLoop data w l pos = [] := by
  unfold compressLoop
  have : data.length - pos = 0 := by omega
  rw [this]
  rfl

theorem compressLoop_unfold {data : List Nat} {w l dpos : Nat} (h : dpos < data.length) :
    compressLoop data w l dpos =
      variable_length_encode (find_longest_match data dpos w l).1
          (find_longest_match data dpos w l).2.1 ++
        (find_longest_match data dpos w l).2.2.getD 0xFF ::
          compressLoop data w l (dpos + (find_longest_match data dpos w l).2.1 + 1) := by
  unfold compressLoop
  obtain ⟨m, hm⟩ : ∃ m, data.length - dpos = m + 1 := ⟨data.length - dpos - 1, by omega⟩
  rw [hm]
  simp only [compressLoopF]
  rw [if_pos h]
  rw [compressLoopF_irrel data w l m
    (data.length - (dpos + (find_longest_match data dpos w l).2.1 + 1))
    (dpos + (find_longest_match data dpos w l).2.1 + 1) (by omega) (by omega)]

theorem decompressLoopF_irrel (cd : List Nat) :
    ∀ f1 f2 pos r, cd.length ≤ pos + f1 → cd.length ≤ pos + f2 →
      decompressLoopF cd f1 pos r = decompressLoopF cd f2 pos r := by
  intro f1
  induction f1 with
  | zero =>
    intro f2 pos r h1 h2
    cases f2 with
    | zero => rfl
    | succ g2 =>
      simp only [decompressLoopF]
      rw [if_neg (by omega)]
  | succ g1 ih =>
    intro f2 pos r h1 h2
    cases f2 with
    | zero =>
      simp only [decompressLoopF]
      rw [if_neg (by omega)]
    | succ g2 =>
      simp only [decompressLoopF]
      by_cases hp : pos < cd.length
      · rw [if_pos hp, if_pos hp]
        rcases hv : variable_length_decode cd pos with _ | ⟨o, fl, p2⟩
        · simp only [hv]
        · simp only [hv]
          have hp2 : pos + 2 ≤ p2 := variable_length_decode_lt hv
          by_cases hz : o = 0 ∧ fl = 0
          · simp only [if_pos hz]
            rcases hnc : (if p2 < cd.length then some (cd.getD p2 0) else none) with _ | c
            · simp only [hnc]
            · simp only [hnc]
              rw [ih g2 (p2 + 1) (if c = 255 then r else r ++ [c]) (by omega) (by omega)]
          · simp only [if_neg hz]
            rcases hcp : copyLoop r o fl with _ | r1
            · simp only [hcp]
            · simp only [hcp]
              rcases hnc : (if p2 < cd.length then some (cd.getD p2 0) else none) with _ | c
              · simp only [hnc]
              · simp only [hnc]
                rw [ih g2 (p2 + 1) (if c = 255 then r1 else r1 ++ [c]) (by omega) (by omega)]
      · rw [if_neg hp, if_neg hp]

theorem decompressLoop_stop {cd : List Nat} {pos : Nat} (r : List Nat)
    (h : cd.length ≤ pos) : decompressLoop cd pos r = some r := by
  unfold decompressLoop
  have : cd.length - pos = 0 := by omega
  rw [this]
  rfl

/-- One iteration of the decompression loop, when the token's literal
byte is present in the stream. -/
theorem decompressLoop_step {T : List Nat} {pos o fl p2 c : Nat} (r : List Nat)
    (hdec : variable_length_decode T pos = some (o, fl, p2))
    (hc : T.get? p2 = some c) :
    decompressLoop T pos r =
      if o = 0 ∧ fl = 0 then
        decompressLoop T (p2 + 1) (if c = 255 then r else r ++ [c])
      else
        match copyLoop r o fl with
        | none => none
        | some r1 => decompressLoop T (p2 + 1) (if c = 255 then r1 else r1 ++ [c]) := by
  have hp2 : pos + 2 ≤ p2 := variable_length_decode_lt hdec
  have hp2lt : p2 < T.length := by
    by_contra hcon
    rw [List.get?_eq_none.mpr (by omega)] at hc
    exact absurd hc (by simp)
  have hpos : pos < T.length := by omega
  have hcd : T.getD p2 0 = c := by
    have := get?_some_of_lt hp2lt
    rw [this] at hc
    exact (Option.some_inj.mp hc)
  unfold decompressLoop
  obtain ⟨m, hm⟩ : ∃ m, T.length - pos = m + 1 := ⟨T.length - pos - 1, by omega⟩
  rw [hm]
  simp only [decompressLoopF]
  rw [if_pos hpos]
  simp only [hdec]
  rw [if_pos hp2lt, hcd]
  by_cases hz : o = 0 ∧ fl = 0
  · simp only [if_pos hz]
    rw [decompressLoopF_irrel T m (T.length - (p2 + 1)) (p2 + 1)
      (if c = 255 then r else r ++ [c]) (by omega) (by omega)]
  · simp only [if_neg hz]
    rcases hcp : copyLoop r o fl with _ | r1
    · simp only [hcp]
    · simp only [hcp]
      rw [decompressLoopF_irrel T m (T.length - (p2 + 1)) (p2 + 1)
        (if c = 255 then r1 else r1 ++ [c]) (by omega) (by omega)]

end BMP.LZ

/-! ### LZ77 round trip -/

namespace BMP.LZ

theorem take_concat_getD {data : List Nat} {n : Nat} (h : n < data.length) :
    data.take n ++ [data.getD n 0] = data.take (n + 1) := by
  rw [List.take_succ]
  congr 1
  rw [← List.get?_eq_getElem?, get?_some_of_lt h]
  rfl

/-- The decompressor's back-copy, fed the compressor's own invariants,
extends `take dpos` of the original data to `take (dpos + fl)`. -/
theorem copyLoop_take (data : List Nat) (off : Nat) (hoff : 0 < off) :
    ∀ fl dpos, off ≤ dpos → fl ≤ off → dpos + fl ≤ data.length →
      (∀ j, j < fl → data.getD (dpos - off + j) 0 = data.getD (dpos + j) 0) →
      copyLoop (data.take dpos) off fl = some (data.take (dpos + fl)) := by
  intro fl
  induction fl with
  | zero =>
    intro dpos h1 h2 h3 h4
    simp [copyLoop]
  | succ n ih =>
    intro dpos h1 h2 h3 h4
    simp only [copyLoop]
    have hlen : (data.take dpos).length = dpos := by
      rw [List.length_take]; omega
    have hb : backByte (data.take dpos) off = some (data.getD dpos 0) := by
      unfold backByte
      rw [if_neg (by omega), if_pos (by omega), hlen]
      have hidx : dpos - off < dpos := by omega
      rw [List.get?_take hidx, get?_some_of_lt (by omega)]
      have h0 := h4 0 (by omega)
      simp only [Nat.add_zero] at h0
      rw [h0]
    simp only [hb]
    rw [take_concat_getD (by omega)]
    have hrec := ih (dpos + 1) (by omega) (by omega) (by omega) ?_
    · rw [hrec]
      have : dpos + 1 + n = dpos + (n + 1) := by omega
      rw [this]
    · intro j hj
      have hstep := h4 (j + 1) (by omega)
      have e1 : dpos + 1 - off + j = dpos - off + (j + 1) := by omega
      have e2 : dpos + 1 + j = dpos + (j + 1) := by omega
      rw [e1, e2]
      exact hstep

/-- Main induction for the LZ77 round trip on inputs containing no
`0xFF` byte: decoding the token stream produced from position `dpos`
onwards, with the decoder's output buffer holding the already
reconstructed prefix, reconstructs all of `data`.  The stream may sit
after an arbitrary already-consumed prefix `A`. -/
theorem lzMain (data : List Nat) {w l : Nat} (hl : 1 ≤ l) (hw : w ≤ 32767)
    (hls : l ≤ 32767) (hff : 255 ∉ data) :
    ∀ n dpos (A : List Nat), data.length ≤ dpos + n →
      decompressLoop (A ++ compressLoop data w l dpos) A.length (data.take dpos) =
        some data := by
  intro n
  induction n with
  | zero =>
    intro dpos A h
    rw [compressLoop_stop (by omega), List.append_nil,
      List.take_of_length_le (by omega)]
    exact decompressLoop_stop data (by omega)
  | succ m ih =>
    intro dpos A h
    by_cases hd : dpos < data.length
    · obtain ⟨off, flen, hfind, hlo, hop, how, hfl, hbound, hz, hagree⟩ :=
        find_longest_match_spec data hl hd
      rw [compressLoop_unfold hd, hfind]
      simp only [Prod.fst, Prod.snd]
      set token := variable_length_encode off flen with htok
      set lit := (data.get? (dpos + flen)).getD 255 with hlit
      set rest := compressLoop data w l (dpos + flen + 1) with hrest
      have hassoc : A ++ (token ++ lit :: rest) = A ++ (token ++ ([lit] ++ rest)) := by simp
      have hdec : variable_length_decode (A ++ (token ++ lit :: rest)) A.length =
          some (off, flen, A.length + token.length) :=
        variable_length_decode_encode A (lit :: rest) (by omega) (by omega)
      have hlitg : (A ++ (token ++ lit :: rest)).get? (A.length + token.length) = some lit := by
        have e1 : A ++ (token ++ lit :: rest) = (A ++ token) ++ ([lit] ++ rest) := by simp
        rw [e1]
        have e2 : A.length + token.length = (A ++ token).length + 0 := by
          simp
        rw [e2, get?_append_at]
        rfl
      rw [decompressLoop_step (data.take dpos) hdec hlitg]
      have hA' : ∀ racc : List Nat,
          decompressLoop (A ++ (token ++ lit :: rest)) (A.length + token.length + 1) racc =
            decompressLoop ((A ++ token ++ [lit]) ++ rest) (A ++ token ++ [lit]).length racc := by
        intro racc
        have e3 : A ++ (token ++ lit :: rest) = (A ++ token ++ [lit]) ++ rest := by simp
        have e4 : (A ++ token ++ [lit]).length = A.length + token.length + 1 := by
          simp
          omega
        rw [e3, e4]
      by_cases hfl0 : flen = 0
      · subst hfl0
        have hoff0 : off = 0 := hz rfl
        subst hoff0
        rw [if_pos ⟨rfl, rfl⟩]
        have hlitval : lit = data.getD dpos 0 := by
          rw [hlit, get?_some_of_lt (by omega)]
          rfl
        have hmem : data.getD dpos 0 ∈ data := getD_mem_of_lt (by omega)
        have hlit255 : ¬ lit = 255 := by
          rw [hlitval]
          intro hcon
          rw [hcon] at hmem
          exact hff hmem
        rw [if_neg hlit255]
        rw [hA']
        have hacc : data.take dpos ++ [lit] = data.take (dpos + 1) := by
          rw [hlitval]
          exact take_concat_getD (by omega)
        rw [hacc]
        have hrec := ih (dpos + 1) (A ++ token ++ [lit]) (by omega)
        rw [hrest]
        have e5 : dpos + 0 + 1 = dpos + 1 := by omega
        rw [e5]
        exact hrec
      · have hoffpos : 0 < off := by omega
        have hne : ¬ (off = 0 ∧ flen = 0) := by omega
        rw [if_neg hne]
        have hcopy := copyLoop_take data off hoffpos flen dpos hop hlo hbound hagree
        simp only [hcopy]
        by_cases hend : dpos + flen < data.length
        · have hlitval : lit = data.getD (dpos + flen) 0 := by
            rw [hlit, get?_some_of_lt hend]
            rfl
          have hmem : data.getD (dpos + flen) 0 ∈ data := getD_mem_of_lt hend
          have hlit255 : ¬ lit = 255 := by
            rw [hlitval]
            intro hcon
            rw [hcon] at hmem
            exact hff hmem
          rw [if_neg hlit255]
          rw [hA']
          have hacc : data.take (dpos + flen) ++ [lit] = data.take (dpos + flen + 1) := by
            rw [hlitval]
            exact take_concat_getD hend
          rw [hacc, hrest]
          exact ih (dpos + flen + 1) (A ++ token ++ [lit]) (by omega)
        · have hlen2 : dpos + flen = data.length := by omega
          have hlitval : lit = 255 := by
            rw [hlit, List.get?_eq_none.mpr (by omega)]
            rfl
          rw [if_pos hlitval]
          rw [hA']
          have hacc : data.take (dpos + flen) = data.take (dpos + flen + 1) := by
            rw [List.take_of_length_le (by omega), List.take_of_length_le (by omega)]
          rw [hacc, hrest]
          exact ih (dpos + flen + 1) (A ++ token ++ [lit]) (by omega)
    · rw [compressLoop_stop (by omega), List.append_nil,
        List.take_of_length_le (by omega)]
      exact decompressLoop_stop data (by omega)

/-- LZ77 round trip for buffers containing no `0xFF` byte. -/
theorem lz77_roundtrip (data : List Nat) {w l : Nat} (hl : 1 ≤ l) (hw : w ≤ 32767)
    (hls : l ≤ 32767) (hff : 255 ∉ data) :
    decompress_lz77 (compress_lz77 data w l).1 (compress_lz77 data w l).2 = some data := by
  unfold compress_lz77
  by_cases h50 : data.length < 50
  · rw [if_pos h50]
    unfold decompress_lz77
    rfl
  · rw [if_neg h50]
    by_cases hshort : (compressLoop data w l 0).length < data.length
    · simp only [if_pos hshort]
      unfold decompress_lz77
      rw [if_neg (by simp)]
      have hmain := lzMain data hl hw hls hff data.length 0 [] (by omega)
      simpa using hmain
    · simp only [if_neg hshort]
      unfold decompress_lz77
      rfl

end BMP.LZ

/-! ### LZ77 with genuine 0xFF literals: length accounting -/

namespace BMP.LZ

theorem copyLoop_length {offset : Nat} :
    ∀ n (r r1 : List Nat), copyLoop r offset n = some r1 → r1.length = r.length + n := by
  intro n
  induction n with
  | zero =>
    intro r r1 h
    simp only [copyLoop, Option.some_inj] at h
    subst h
    simp
  | succ k ih =>
    intro r r1 h
    simp only [copyLoop] at h
    rcases hb : backByte r offset with _ | b <;> rw [hb] at h
    · exact absurd h (by simp)
    · simp only [] at h
      have := ih (r ++ [b]) r1 h
      simp at this
      omega

theorem ffCountF_irrel (data : List Nat) (w l : Nat) :
    ∀ f1 f2 pos, data.length ≤ pos + f1 → data.length ≤ pos + f2 →
      ffCountF data w l f1 pos = ffCountF data w l f2 pos := by
  intro f1
  induction f1 with
  | zero =>
    intro f2 pos h1 h2
    cases f2 with
    | zero => rfl
    | succ g2 =>
      simp only [ffCountF]
      rw [if_neg (by omega)]
  | succ g1 ih =>
    intro f2 pos h1 h2
    cases f2 with
    | zero =>
      simp only [ffCountF]
      rw [if_neg (by omega)]
    | succ g2 =>
      simp only [ffCountF]
      by_cases hp : pos < data.length
      · rw [if_pos hp, if_pos hp]
        rw [ih g2 (pos + (find_longest_match data pos w l).2.1 + 1) (by omega) (by omega)]
      · rw [if_neg hp, if_neg hp]

theorem ffCount_stop {data : List Nat} {w l pos : Nat} (h : data.length ≤ pos) :
    ffCount data w l pos = 0 := by
  unfold ffCount
  have : data.length - pos = 0 := by omega
  rw [this]
  rfl

theorem ffCount_unfold {data : List Nat} {w l dpos : Nat} (h : dpos < data.length) :
    ffCount data w l dpos =
      (if (find_longest_match data dpos w l).2.2 = some 255 then 1 else 0) +
        ffCount data w l (dpos + (find_longest_match data dpos w l).2.1 + 1) := by
  unfold ffCount
  obtain ⟨m, hm⟩ : ∃ m, data.length - dpos = m + 1 := ⟨data.length - dpos - 1, by omega⟩
  rw [hm]
  simp only [ffCountF]
  rw [if_pos h]
  rw [ffCountF_irrel data w l m
    (data.length - (dpos + (find_longest_match data dpos w l).2.1 + 1))
    (dpos + (find_longest_match data dpos w l).2.1 + 1) (by omega) (by omega)]

/-- Length accounting for decoding a token stream that may contain
genuine `0xFF` literals: decoding either fails outright or returns a
buffer whose length falls short of the original by exactly the number
of genuine `0xFF` literal bytes in the stream. -/
theorem lzCountMain (data : List Nat) {w l : Nat} (hl : 1 ≤ l) (hw : w ≤ 32767)
    (hls : l ≤ 32767) :
    ∀ n dpos (A racc : List Nat), data.length ≤ dpos + n →
      decompressLoop (A ++ compressLoop data w l dpos) A.length racc = none
      ∨ ∃ out, decompressLoop (A ++ compressLoop data w l dpos) A.length racc = some out
          ∧ out.length + ffCount data w l dpos = racc.length + (data.length - dpos) := by
  intro n
  induction n with
  | zero =>
    intro dpos A racc h
    right
    refine ⟨racc, ?_, ?_⟩
    · rw [compressLoop_stop (by omega), List.append_nil]
      exact decompressLoop_stop racc (by omega)
    · rw [ffCount_stop (by omega)]
      omega
  | succ m ih =>
    intro dpos A racc h
    by_cases hd : dpos < data.length
    · obtain ⟨off, flen, hfind, hlo, hop, how, hfl, hbound, hz, hagree⟩ :=
        find_longest_match_spec data hl hd
      rw [compressLoop_unfold hd, hfind]
      simp only [Prod.fst, Prod.snd]
      rw [ffCount_unfold hd, hfind]
      simp only [Prod.fst, Prod.snd]
      set token := variable_length_encode off flen with htok
      set lit := (data.get? (dpos + flen)).getD 255 with hlit
      set rest := compressLoop data w l (dpos + flen + 1) with hrest
      have hdec : variable_length_decode (A ++ (token ++ lit :: rest)) A.length =
          some (off, flen, A.length + token.length) :=
        variable_length_decode_encode A (lit :: rest) (by omega) (by omega)
      have hlitg : (A ++ (token ++ lit :: rest)).get? (A.length + token.length) = some lit := by
        have e1 : A ++ (token ++ lit :: rest) = (A ++ token) ++ ([lit] ++ rest) := by simp
        rw [e1]
        have e2 : A.length + token.length = (A ++ token).length + 0 := by simp
        rw [e2, get?_append_at]
        rfl
      rw [decompressLoop_step racc hdec hlitg]
      have hA' : ∀ racc2 : List Nat,
          decompressLoop (A ++ (token ++ lit :: rest)) (A.length + token.length + 1) racc2 =
            decompressLoop ((A ++ token ++ [lit]) ++ rest) (A ++ token ++ [lit]).length racc2 := by
        intro racc2
        have e3 : A ++ (token ++ lit :: rest) = (A ++ token ++ [lit]) ++ rest := by simp
        have e4 : (A ++ token ++ [lit]).length = A.length + token.length + 1 := by
          simp
          omega
        rw [e3, e4]
      have hffval : (if dpos + flen < data.length then some (data.getD (dpos + flen) 0)
          else none) = data.get? (dpos + flen) := (get?_eq_ite data (dpos + flen)).symm
      by_cases hfl0 : flen = 0
      · subst hfl0
        have hoff0 : off = 0 := hz rfl
        subst hoff0
        rw [if_pos ⟨rfl, rfl⟩]
        have hsome : data.get? (dpos + 0) = some (data.getD dpos 0) := by
          have := get?_some_of_lt (L := data) (n := dpos) (by omega)
          simpa using this
        have hlitval : lit = data.getD dpos 0 := by
          rw [hlit, hsome]
          rfl
        by_cases h255 : lit = 255
        · rw [if_pos h255]
          have hffc : (if data.get? (dpos + 0) = some 255 then 1 else 0) = 1 := by
            rw [if_pos (by rw [hsome, ← hlitval, h255])]
          rw [hA']
          rcases ih (dpos + 1) (A ++ token ++ [lit]) racc (by omega) with hnone | ⟨out, hout, hlen⟩
          · left
            rw [hrest]
            have e5 : dpos + 0 + 1 = dpos + 1 := by omega
            rw [e5]
            exact hnone
          · right
            refine ⟨out, ?_, ?_⟩
            · rw [hrest]
              have e5 : dpos + 0 + 1 = dpos + 1 := by omega
              rw [e5]
              exact hout
            · rw [hffc]
              have e5 : dpos + 0 + 1 = dpos + 1 := by omega
              rw [e5]
              omega
        · rw [if_neg h255]
          have hffc : (if data.get? (dpos + 0) = some 255 then 1 else 0) = 0 := by
            rw [if_neg]
            rw [hsome]
            intro hcon
            rw [Option.some_inj] at hcon
            rw [← hlitval] at hcon
            exact h255 hcon
          rw [hA']
          rcases ih (dpos + 1) (A ++ token ++ [lit]) (racc ++ [lit]) (by omega) with
            hnone | ⟨out, hout, hlen⟩
          · left
            rw [hrest]
            have e5 : dpos + 0 + 1 = dpos + 1 := by omega
            rw [e5]
            exact hnone
          · right
            refine ⟨out, ?_, ?_⟩
            · rw [hrest]
              have e5 : dpos + 0 + 1 = dpos + 1 := by omega
              rw [e5]
              exact hout
            · rw [hffc]
              have e5 : dpos + 0 + 1 = dpos + 1 := by omega
              rw [e5] at hlen ⊢
              simp at hlen
              omega
      · have hne : ¬ (off = 0 ∧ flen = 0) := by omega
        rw [if_neg hne]
        rcases hcp : copyLoop racc off flen with _ | r1
        · left
          simp only [hcp]
        · simp only [hcp]
          have hr1len : r1.length = racc.length + flen := copyLoop_length flen racc r1 hcp
          by_cases h255 : lit = 255
          · rw [if_pos h255]
            rw [hA']
            rcases ih (dpos + flen + 1) (A ++ token ++ [lit]) r1 (by omega) with
              hnone | ⟨out, hout, hlen⟩
            · left
              rw [hrest]
              exact hnone
            · right
              refine ⟨out, ?_, ?_⟩
              · rw [hrest]
                exact hout
              · by_cases hend : dpos + flen < data.length
                · have hffc : (if data.get? (dpos + flen) = some 255 then 1 else 0) = 1 := by
                    rw [if_pos]
                    rw [get?_some_of_lt hend]
                    rw [Option.some_inj]
                    have : lit = data.getD (dpos + flen) 0 := by
                      rw [hlit, get?_some_of_lt hend]
                      rfl
                    omega
                  rw [hffc]
                  omega
                · have hffc : (if data.get? (dpos + flen) = some 255 then 1 else 0) = 0 := by
                    rw [if_neg]
                    rw [List.get?_eq_none.mpr (by omega)]
                    simp
                  rw [hffc]
                  rw [ffCount_stop (by omega)] at hlen ⊢
                  omega
          · rw [if_neg h255]
            have hend : dpos + flen < data.length := by
              by_contra hcon
              have : data.get? (dpos + flen) = none := List.get?_eq_none.mpr (by omega)
              rw [hlit, this] at h255
              exact h255 rfl
            have hffc : (if data.get? (dpos + flen) = some 255 then 1 else 0) = 0 := by
              rw [if_neg]
              rw [get?_some_of_lt hend]
              intro hcon
              rw [Option.some_inj] at hcon
              have : lit = data.getD (dpos + flen) 0 := by
                rw [hlit, get?_some_of_lt hend]
                rfl
              omega
            rw [hffc]
            rw [hA']
            rcases ih (dpos + flen + 1) (A ++ token ++ [lit]) (r1 ++ [lit]) (by omega) with
              hnone | ⟨out, hout, hlen⟩
            · left
              rw [hrest]
              exact hnone
            · right
              refine ⟨out, ?_, ?_⟩
              · rw [hrest]
                exact hout
              · simp at hlen
                omega
    · right
      refine ⟨racc, ?_, ?_⟩
      · rw [compressLoop_stop (by omega), List.append_nil]
        exact decompressLoop_stop racc (by omega)
      · rw [ffCount_stop (by omega)]
        omega

end BMP.LZ

/-! ### Bit packing: lemmas -/

namespace BMP.Huff

theorem getD_take_eq {l : List Bool} {n j : Nat} (h : j < n) :
    (l.take n).getD j false = l.getD j false := by
  rw [List.getD_eq_get?, List.getD_eq_get?, List.get?_take h]

theorem getD_drop_eq (l : List Bool) (n j : Nat) :
    (l.drop n).getD j false = l.getD (n + j) false := by
  rw [List.getD_eq_get?, List.getD_eq_get?, List.get?_drop]

theorem byteOfBits_eq_tuple (bs : List Bool) :
    byteOfBits bs =
      byteOfBits [bs.getD 0 false, bs.getD 1 false, bs.getD 2 false, bs.getD 3 false,
        bs.getD 4 false, bs.getD 5 false, bs.getD 6 false, bs.getD 7 false] := rfl

theorem byteOfBits_tuple_lt :
    ∀ a b c d e f g h : Bool, byteOfBits [a, b, c, d, e, f, g, h] < 256 := by decide

theorem byteOfBits_lt (bs : List Bool) : byteOfBits bs < 256 := by
  rw [byteOfBits_eq_tuple]
  exact byteOfBits_tuple_lt _ _ _ _ _ _ _ _

theorem bitsOfByte_byteOfBits_tuple :
    ∀ a b c d e f g h : Bool,
      bitsOfByte (byteOfBits [a, b, c, d, e, f, g, h]) = [a, b, c, d, e, f, g, h] := by decide

theorem bitsOfByte_byteOfBits {l : List Bool} (h : l.length = 8) :
    bitsOfByte (byteOfBits l) = l := by
  rcases l with _ | ⟨a, _ | ⟨b, _ | ⟨c, _ | ⟨d, _ | ⟨e, _ | ⟨f, _ | ⟨g, _ | ⟨x, t⟩⟩⟩⟩⟩⟩⟩⟩ <;>
    simp at h
  subst h
  exact bitsOfByte_byteOfBits_tuple a b c d e f g x

theorem testBit_byteOfBits_tuple :
    ∀ a b c d e f g h : Bool, ∀ i, i < 8 →
      (byteOfBits [a, b, c, d, e, f, g, h]).testBit (7 - i) =
        [a, b, c, d, e, f, g, h].getD i false := by decide

theorem testBit_byteOfBits (bs : List Bool) {i : Nat} (hi : i < 8) :
    (byteOfBits bs).testBit (7 - i) = bs.getD i false := by
  rw [byteOfBits_eq_tuple]
  have h1 := testBit_byteOfBits_tuple (bs.getD 0 false) (bs.getD 1 false) (bs.getD 2 false)
    (bs.getD 3 false) (bs.getD 4 false) (bs.getD 5 false) (bs.getD 6 false) (bs.getD 7 false)
    i hi
  rw [h1]
  interval_cases i <;> rfl

theorem packBitsF_irrel : ∀ f1 f2 (bs : List Bool), bs.length ≤ f1 → bs.length ≤ f2 →
    packBitsF f1 bs = packBitsF f2 bs := by
  intro f1
  induction f1 with
  | zero =>
    intro f2 bs h1 h2
    have : bs = [] := List.length_eq_zero.mp (by omega)
    subst this
    cases f2 <;> rfl
  | succ g1 ih =>
    intro f2 bs h1 h2
    cases bs with
    | nil => cases f2 <;> rfl
    | cons b t =>
      cases f2 with
      | zero => simp at h2
      | succ g2 =>
        simp only [packBitsF]
        congr 1
        apply ih
        · simp at h1 ⊢
          omega
        · simp at h2 ⊢
          omega

theorem packBits_nil : packBits [] = [] := rfl

theorem packBits_cons (bits : List Bool) (hne : bits ≠ []) :
    packBits bits = byteOfBits (bits.take 8) :: packBits (bits.drop 8) := by
  unfold packBits
  rcases bits with _ | ⟨b, t⟩
  · exact absurd rfl hne
  · simp only [List.length_cons, packBitsF]
    congr 1
    apply packBitsF_irrel
    · simp only [List.length_drop, List.length_cons]
      omega
    · exact le_refl _

theorem packBits_length : ∀ fuel (bits : List Bool), bits.length ≤ fuel →
    (packBits bits).length = (bits.length + 7) / 8 := by
  intro fuel
  induction fuel with
  | zero =>
    intro bits h
    have : bits = [] := List.length_eq_zero.mp (by omega)
    subst this
    rfl
  | succ g ih =>
    intro bits h
    by_cases hne : bits = []
    · subst hne
      rfl
    · have hpos : 0 < bits.length := List.length_pos.mpr hne
      rw [packBits_cons bits hne]
      have hlt : (bits.drop 8).length ≤ g := by
        simp only [List.length_drop]
        omega
      rw [List.length_cons, ih (bits.drop 8) hlt]
      simp only [List.length_drop]
      omega

theorem packBits_bit : ∀ fuel (bits : List Bool), bits.length ≤ fuel →
    ∀ i, i < bits.length →
      ((packBits bits).getD (i / 8) 0).testBit (7 - i % 8) = bits.getD i false := by
  intro fuel
  induction fuel with
  | zero =>
    intro bits h i hi
    omega
  | succ g ih =>
    intro bits h i hi
    have hne : bits ≠ [] := by
      intro hcon
      rw [hcon] at hi
      simp at hi
    rw [packBits_cons bits hne]
    by_cases h8 : i < 8
    · have hd : i / 8 = 0 := by omega
      have hm : i % 8 = i := by omega
      rw [hd, hm, List.getD_cons_zero]
      rw [testBit_byteOfBits (bits.take 8) h8]
      exact getD_take_eq h8
    · have hd : i / 8 = (i - 8) / 8 + 1 := by omega
      have hm : i % 8 = (i - 8) % 8 := by omega
      rw [hd, hm, List.getD_cons_succ]
      have hlen : (bits.drop 8).length ≤ g := by
        simp only [List.length_drop]
        omega
      have hi' : i - 8 < (bits.drop 8).length := by
        simp only [List.length_drop]
        omega
      rw [ih (bits.drop 8) hlen (i - 8) hi']
      rw [getD_drop_eq]
      congr 1
      omega

theorem flatten_bitsOfByte_packBits : ∀ fuel (bits : List Bool), bits.length ≤ fuel →
    bits.length % 8 = 0 → ((packBits bits).map bitsOfByte).flatten = bits := by
  intro fuel
  induction fuel with
  | zero =>
    intro bits h hm
    have : bits = [] := List.length_eq_zero.mp (by omega)
    subst this
    rfl
  | succ g ih =>
    intro bits h hm
    rcases hb : bits with _ | ⟨b, t⟩
    · rfl
    · rw [← hb]
      have hne : bits ≠ [] := by rw [hb]; simp
      have hpos : 1 ≤ bits.length := by rw [hb]; simp
      have h8 : 8 ≤ bits.length := by omega
      rw [packBits_cons bits hne]
      simp only [List.map_cons, List.flatten_cons]
      rw [bitsOfByte_byteOfBits (by rw [List.length_take]; omega)]
      have hlen : (bits.drop 8).length ≤ g := by
        simp only [List.length_drop]
        omega
      have hmod : (bits.drop 8).length % 8 = 0 := by
        simp only [List.length_drop]
        omega
      rw [ih (bits.drop 8) hlen hmod]
      exact List.take_append_drop 8 bits

/-- Packing a bit string into bytes with zero padding and unpacking it
while stripping the padding is the identity. -/
theorem unpack_pack (bits : List Bool) :
    efficient_bytes_to_binary_string (efficient_binary_string_to_bytes bits).1
      (efficient_binary_string_to_bytes bits).2 = bits := by
  unfold efficient_binary_string_to_bytes efficient_bytes_to_binary_string
  set padding := if bits.length % 8 = 0 then 0 else 8 - bits.length % 8 with hpad
  set padded := bits ++ List.replicate padding false with hpadded
  have hmod : padded.length % 8 = 0 := by
    rw [hpadded]
    simp only [List.length_append, List.length_replicate]
    rw [hpad]
    split <;> omega
  have hflat : ((packBits padded).map bitsOfByte).flatten = padded :=
    flatten_bitsOfByte_packBits padded.length padded (le_refl _) hmod
  simp only []
  rw [hflat]
  by_cases hp : padding = 0
  · rw [if_pos hp]
    rw [hpadded, hp]
    simp
  · rw [if_neg hp]
    rw [hpadded]
    simp only [List.length_append, List.length_replicate]
    have : bits.length + padding - padding = bits.length := by omega
    rw [this]
    rw [List.take_append_of_le_length (le_refl _)]  -- hmm take bits.length (bits ++ pad) = take bits.length bits = bits
    simp

end BMP.Huff

/-! ### Code table serialization round trip -/

namespace BMP.Huff

theorem get?_append_at' (A L : List Nat) (i : Nat) :
    (A ++ L).get? (A.length + i) = L.get? i := by
  rw [List.get?_append_right (by omega)]
  simp

/-- The byte area of one packed code, read bit by bit from inside a
larger stream, reproduces the code bits. -/
theorem readBitAt_pack {pre : List Nat} {code : List Bool} (post : List Nat) {i : Nat}
    (hi : i < code.length) :
    readBitAt (pre ++ (packBits code ++ post)) pre.length i = some (code.getD i false) := by
  unfold readBitAt
  rw [get?_append_at']
  have hplen : (packBits code).length = (code.length + 7) / 8 :=
    packBits_length code.length code (le_refl _)
  have hidx : i / 8 < (packBits code).length := by
    rw [hplen]
    omega
  rw [List.get?_append hidx]
  rw [LZ.get?_some_of_lt hidx]
  simp only [Option.map_some]
  rw [packBits_bit code.length code (le_refl _) i hi]

theorem readCodeBitsGo_pack {pre : List Nat} {code : List Bool} (post : List Nat) :
    ∀ n i, i + n ≤ code.length →
      readCodeBitsGo (pre ++ (packBits code ++ post)) pre.length i n =
        some ((code.drop i).take n) := by
  intro n
  induction n with
  | zero =>
    intro i h
    simp [readCodeBitsGo]
  | succ m ih =>
    intro i h
    simp only [readCodeBitsGo]
    rw [readBitAt_pack post (by omega)]
    rw [ih (i + 1) (by omega)]
    simp only [Option.some_inj]
    have hlt : i < code.length := by omega
    rw [List.drop_eq_getElem_cons hlt]
    rw [List.take_succ_cons]
    congr 1
    rw [List.getD_eq_get?, List.get?_eq_getElem?, List.getElem?_eq_getElem hlt]
    rfl

theorem readCodeBits_pack {pre : List Nat} {code : List Bool} (post : List Nat) :
    readCodeBits (pre ++ (packBits code ++ post)) pre.length code.length = some code := by
  unfold readCodeBits
  rw [readCodeBitsGo_pack post code.length 0 (by omega)]
  simp

/-- The per-entry byte block of `serialize_tree`. -/
def entryBytes (codes : Tbl) : List Nat :=
  (codes.map (fun sc => sc.1 :: sc.2.length :: packBits sc.2)).flatten

theorem deserializeLoop_entryBytes :
    ∀ (codes : Tbl) (pre : List Nat),
      deserializeLoop (pre ++ entryBytes codes) pre.length codes.length = some codes := by
  intro codes
  induction codes with
  | nil =>
    intro pre
    rfl
  | cons sc rest ih =>
    intro pre
    obtain ⟨s, c⟩ := sc
    have hEB : entryBytes ((s, c) :: rest) =
        (s :: c.length :: packBits c) ++ entryBytes rest := by
      unfold entryBytes
      simp
    rw [hEB]
    simp only [List.length_cons, deserializeLoop]
    have h0 : (pre ++ ((s :: c.length :: packBits c) ++ entryBytes rest)).get?
        (pre.length + 0) = some s := by
      rw [get?_append_at']
      rfl
    simp only [Nat.add_zero] at h0
    have h1 : (pre ++ ((s :: c.length :: packBits c) ++ entryBytes rest)).get?
        (pre.length + 1) = some c.length := by
      rw [get?_append_at']
      rfl
    simp only [h0, h1]
    have hsplit : pre ++ ((s :: c.length :: packBits c) ++ entryBytes rest) =
        (pre ++ [s, c.length]) ++ (packBits c ++ entryBytes rest) := by
      simp
    have hrc : readCodeBits (pre ++ ((s :: c.length :: packBits c) ++ entryBytes rest))
        (pre.length + 2) c.length = some c := by
      rw [hsplit]
      have hl2 : pre.length + 2 = (pre ++ [s, c.length]).length := by simp
      rw [hl2]
      exact readCodeBits_pack (entryBytes rest)
    simp only [hrc]
    have hplen : (packBits c).length = (c.length + 7) / 8 :=
      packBits_length c.length c (le_refl _)
    have hsplit2 : pre ++ ((s :: c.length :: packBits c) ++ entryBytes rest) =
        (pre ++ (s :: c.length :: packBits c)) ++ entryBytes rest := by
      simp
    have hpos2 : pre.length + 2 + (c.length + 7) / 8 =
        (pre ++ (s :: c.length :: packBits c)).length := by
      simp only [List.length_append, List.length_cons]
      omega
    rw [hsplit2, hpos2]
    simp only [ih (pre ++ (s :: c.length :: packBits c))]

/-- Serialization round trip for code tables with fewer than 65536
entries (the source's 2-byte count). -/
theorem deserialize_serialize (codes : Tbl) (hlen : codes.length < 65536) :
    deserialize_tree (serialize_tree codes) = some codes := by
  unfold deserialize_tree serialize_tree
  have hcnt : (codes.length % 256 :: codes.length / 256 % 256 ::
      (codes.map (fun sc => sc.1 :: sc.2.length :: packBits sc.2)).flatten).getD 0 0 +
      256 * ((codes.length % 256 :: codes.length / 256 % 256 ::
      (codes.map (fun sc => sc.1 :: sc.2.length :: packBits sc.2)).flatten).getD 1 0) =
      codes.length := by
    simp only [List.getD_cons_zero, List.getD_cons_succ]
    omega
  rw [hcnt]
  have hshape : codes.length % 256 :: codes.length / 256 % 256 ::
      (codes.map (fun sc => sc.1 :: sc.2.length :: packBits sc.2)).flatten =
      [codes.length % 256, codes.length / 256 % 256] ++ entryBytes codes := by
    unfold entryBytes
    rfl
  rw [hshape]
  have h2 : (2 : Nat) = ([codes.length % 256, codes.length / 256 % 256] : List Nat).length := by
    rfl
  rw [h2]
  exact deserializeLoop_entryBytes codes [codes.length % 256, codes.length / 256 % 256]

end BMP.Huff

/-! ### Huffman tree invariants -/

namespace BMP.Huff

/-- The invariant every heap entry keeps through the merge loop. -/
def NodeInv (nd : Node) : Prop :=
  nd.2 ≠ [] ∧ PrefixFree nd.2 ∧ (∀ p ∈ nd.2, p.2 = [] → nd.2.length = 1)

/-- The symbols of one heap entry. -/
def nodeSyms (nd : Node) : List Nat := nd.2.map Prod.fst

/-- The symbols of all heap entries. -/
def heapSyms (heap : List Node) : List Nat := (heap.map nodeSyms).flatten

theorem IsPfx_refl (a : List Bool) : IsPfx a a := ⟨[], List.append_nil a⟩

theorem IsPfx_cons_iff {x : Bool} {a b : List Bool} : IsPfx (x :: a) (x :: b) ↔ IsPfx a b := by
  constructor
  · rintro ⟨t, ht⟩
    exact ⟨t, by simpa using ht⟩
  · rintro ⟨t, ht⟩
    exact ⟨t, by simp [ht]⟩

theorem not_IsPfx_cons_ne {x y : Bool} (h : x ≠ y) (a b : List Bool) :
    ¬ IsPfx (x :: a) (y :: b) := by
  rintro ⟨t, ht⟩
  simp at ht
  exact h ht.1

theorem IsPfx_length_le {a b : List Bool} (h : IsPfx a b) : a.length ≤ b.length := by
  obtain ⟨t, ht⟩ := h
  have := congrArg List.length ht
  simp at this
  omega

theorem prefixFree_symm :
    Symmetric (fun p q : Nat × List Bool => ¬ IsPfx p.2 q.2 ∧ ¬ IsPfx q.2 p.2) := by
  intro p q h
  exact ⟨h.2, h.1⟩

theorem minNode_mem (x : Node) : ∀ l : List Node, minNode x l ∈ x :: l := by
  intro l
  induction l generalizing x with
  | nil => simp [minNode]
  | cons y ys ih =>
    simp only [minNode]
    by_cases h : nodeLt y x
    · rw [if_pos h]
      have := ih y
      simp at this ⊢
      tauto
    · rw [if_neg h]
      have := ih x
      simp at this ⊢
      tauto

theorem popMin_spec {heap : List Node} {m : Node} {rest : List Node}
    (h : popMin heap = some (m, rest)) : m ∈ heap ∧ rest = heap.erase m := by
  rcases heap with _ | ⟨x, xs⟩
  · exact absurd h (by simp [popMin])
  · simp only [popMin, Option.some_inj, Prod.mk.injEq] at h
    obtain ⟨h1, h2⟩ := h
    subst h1
    exact ⟨minNode_mem x xs, h2.symm⟩

theorem popMin_none {heap : List Node} (h : popMin heap = none) : heap = [] := by
  rcases heap with _ | ⟨x, xs⟩
  · rfl
  · exact absurd h (by simp [popMin])

theorem nodeSyms_merge (lo hi : Node) :
    nodeSyms (mergeNodes lo hi) = nodeSyms lo ++ nodeSyms hi := by
  unfold nodeSyms mergeNodes
  simp only [List.map_append, List.map_map]
  have h1 : (Prod.fst ∘ fun p : Nat × List Bool => (p.1, false :: p.2)) = Prod.fst := by
    funext p
    rfl
  have h2 : (Prod.fst ∘ fun p : Nat × List Bool => (p.1, true :: p.2)) = Prod.fst := by
    funext p
    rfl
  rw [h1, h2]

theorem nodeInv_merge {lo hi : Node} (hlo : NodeInv lo) (hhi : NodeInv hi) :
    NodeInv (mergeNodes lo hi) ∧ ∀ p ∈ (mergeNodes lo hi).2, p.2 ≠ [] := by
  obtain ⟨hlo1, hlo2, hlo3⟩ := hlo
  obtain ⟨hhi1, hhi2, hhi3⟩ := hhi
  have hpairs : (mergeNodes lo hi).2 =
      lo.2.map (fun p => (p.1, false :: p.2)) ++ hi.2.map (fun p => (p.1, true :: p.2)) := rfl
  constructor
  · refine ⟨?_, ?_, ?_⟩
    · rw [hpairs]
      intro hcon
      rcases List.append_eq_nil.mp hcon with ⟨ha, _⟩
      exact hlo1 (List.map_eq_nil.mp ha)
    · rw [hpairs]
      unfold PrefixFree
      rw [List.pairwise_append]
      refine ⟨?_, ?_, ?_⟩
      · rw [List.pairwise_map]
        refine List.Pairwise.imp ?_ hlo2
        intro p q hpq
        constructor
        · intro hcon
          exact hpq.1 (IsPfx_cons_iff.mp hcon)
        · intro hcon
          exact hpq.2 (IsPfx_cons_iff.mp hcon)
      · rw [List.pairwise_map]
        refine List.Pairwise.imp ?_ hhi2
        intro p q hpq
        constructor
        · intro hcon
          exact hpq.1 (IsPfx_cons_iff.mp hcon)
        · intro hcon
          exact hpq.2 (IsPfx_cons_iff.mp hcon)
      · intro a ha b hb
        simp only [List.mem_map] at ha hb
        obtain ⟨p, _, rfl⟩ := ha
        obtain ⟨q, _, rfl⟩ := hb
        exact ⟨not_IsPfx_cons_ne (by simp) _ _, not_IsPfx_cons_ne (by simp) _ _⟩
    · intro p hp hcon
      rw [hpairs] at hp
      rcases List.mem_append.mp hp with hmem | hmem <;>
        · simp only [List.mem_map] at hmem
          obtain ⟨q, _, rfl⟩ := hmem
          simp at hcon
  · intro p hp
    rw [hpairs] at hp
    rcases List.mem_append.mp hp with hmem | hmem <;>
      · simp only [List.mem_map] at hmem
        obtain ⟨q, _, rfl⟩ := hmem
        simp

theorem perm_cons_erase_beq : ∀ {l : List Node} {a : Node}, a ∈ l → l.Perm (a :: l.erase a) := by
  intro l
  induction l with
  | nil => intro a h; cases h
  | cons x xs ih =>
    intro a h
    rw [List.erase_cons]
    by_cases hx : x == a
    · rw [if_pos hx]
      have : x = a := eq_of_beq hx
      subst this
      exact List.Perm.refl _
    · rw [if_neg hx]
      have hne : x ≠ a := by
        intro hcon
        subst hcon
        simp at hx
      have hmem : a ∈ xs := by
        rcases List.mem_cons.mp h with rfl | h2
        · exact absurd rfl hne
        · exact h2
      exact ((ih hmem).cons x).trans (List.Perm.swap a x _)

theorem length_erase_beq : ∀ {l : List Node} {a : Node}, a ∈ l →
    (l.erase a).length = l.length - 1 := by
  intro l
  induction l with
  | nil => intro a h; cases h
  | cons x xs ih =>
    intro a h
    rw [List.erase_cons]
    by_cases hx : x == a
    · rw [if_pos hx]
      simp
    · rw [if_neg hx]
      have hne : x ≠ a := by
        intro hcon
        subst hcon
        simp at hx
      have hmem : a ∈ xs := by
        rcases List.mem_cons.mp h with rfl | h2
        · exact absurd rfl hne
        · exact h2
      have hxs : 0 < xs.length := List.length_pos.mpr (by rintro rfl; cases hmem)
      simp only [List.length_cons, ih hmem]
      omega

theorem heapSyms_perm {h1 h2 : List Node} (h : h1.Perm h2) :
    (heapSyms h1).Perm (heapSyms h2) :=
  List.Perm.join (h.map nodeSyms)

theorem heapSyms_cons (nd : Node) (heap : List Node) :
    heapSyms (nd :: heap) = nodeSyms nd ++ heapSyms heap := rfl

/-- The merge loop preserves the per-entry invariant and the multiset
of symbols, and, given fuel at least the heap size minus one, reduces
a nonempty heap to exactly one entry. -/
theorem buildLoopF_inv : ∀ (fuel : Nat) (heap : List Node),
    (∀ nd ∈ heap, NodeInv nd) →
    (∀ nd ∈ buildLoopF fuel heap, NodeInv nd)
    ∧ (heapSyms (buildLoopF fuel heap)).Perm (heapSyms heap)
    ∧ (heap.length ≤ fuel + 1 → 1 ≤ heap.length → (buildLoopF fuel heap).length = 1) := by
  intro fuel
  induction fuel with
  | zero =>
    intro heap hinv
    refine ⟨hinv, List.Perm.refl _, ?_⟩
    intro h1 h2
    simp only [buildLoopF]
    omega
  | succ g ih =>
    intro heap hinv
    by_cases hlen : 1 < heap.length
    · rcases hpop : popMin heap with _ | ⟨lo, rest1⟩
      · have := popMin_none hpop
        subst this
        simp at hlen
      · obtain ⟨hlomem, hrest1⟩ := popMin_spec hpop
        have hr1len : rest1.length = heap.length - 1 := by
          rw [hrest1]
          exact length_erase_beq hlomem
        rcases hpop2 : popMin rest1 with _ | ⟨hi, rest2⟩
        · have := popMin_none hpop2
          rw [this] at hr1len
          simp at hr1len
          omega
        · obtain ⟨hhimem, hrest2⟩ := popMin_spec hpop2
          have hr2len : rest2.length = rest1.length - 1 := by
            rw [hrest2]
            exact length_erase_beq hhimem
          have hstep : buildLoopF (g + 1) heap = buildLoopF g (mergeNodes lo hi :: rest2) := by
            simp only [buildLoopF]
            rw [if_pos hlen]
            simp only [hpop, hpop2]
          have hperm1 : heap.Perm (lo :: rest1) := by
            rw [hrest1]
            exact perm_cons_erase_beq hlomem
          have hperm2 : rest1.Perm (hi :: rest2) := by
            rw [hrest2]
            exact perm_cons_erase_beq hhimem
          have hrest1sub : ∀ nd ∈ rest1, NodeInv nd := by
            intro nd hnd
            rw [hrest1] at hnd
            exact hinv nd (List.erase_subset _ _ hnd)
          have hrest2sub : ∀ nd ∈ rest2, NodeInv nd := by
            intro nd hnd
            rw [hrest2] at hnd
            exact hrest1sub nd (List.erase_subset _ _ hnd)
          have hinvlo : NodeInv lo := hinv lo hlomem
          have hinvhi : NodeInv hi := hrest1sub hi hhimem
          have hinv' : ∀ nd ∈ mergeNodes lo hi :: rest2, NodeInv nd := by
            intro nd hnd
            rcases List.mem_cons.mp hnd with rfl | hnd2
            · exact (nodeInv_merge hinvlo hinvhi).1
            · exact hrest2sub nd hnd2
          obtain ⟨iha, ihb, ihc⟩ := ih (mergeNodes lo hi :: rest2) hinv'
          rw [hstep]
          refine ⟨iha, ?_, ?_⟩
          · refine ihb.trans ?_
            rw [heapSyms_cons, nodeSyms_merge]
            have e1 : (heapSyms heap).Perm (heapSyms (lo :: rest1)) := heapSyms_perm hperm1
            have e2 : (heapSyms rest1).Perm (heapSyms (hi :: rest2)) := heapSyms_perm hperm2
            rw [heapSyms_cons] at e1
            rw [heapSyms_cons] at e2
            refine List.Perm.symm ?_
            refine e1.trans ?_
            rw [List.append_assoc]
            exact (List.Perm.append_left (nodeSyms lo) e2).symm.symm
          · intro hle hge
            apply ihc
            · simp only [List.length_cons]
              omega
            · simp
    · simp only [buildLoopF]
      rw [if_neg hlen]
      refine ⟨hinv, List.Perm.refl _, ?_⟩
      intro h1 h2
      omega

end BMP.Huff

/-! ### Tree construction and frequency table -/

namespace BMP.Huff

theorem flatten_map_singleton {α β : Type} (g : α → β) :
    ∀ l : List α, ((l.map (fun x => [g x])).flatten) = l.map g := by
  intro l
  induction l with
  | nil => rfl
  | cons x xs ih => simp [ih]

/-- What `build_huffman_tree` guarantees on a nonempty frequency table:
it succeeds, its pairs carry exactly the table's symbols, the codes are
prefix-free and nonempty, and a one-entry table produces the one-bit
code `"0"`. -/
theorem build_huffman_tree_spec (ft : List (Nat × Nat)) (hne : ft ≠ []) :
    ∃ nd, build_huffman_tree ft = some nd
      ∧ (nodeSyms nd).Perm (ft.map Prod.fst)
      ∧ PrefixFree nd.2
      ∧ (∀ p ∈ nd.2, p.2 ≠ [])
      ∧ (ft.length = 1 → nd = (1, [((ft.headD (0, 0)).1, [false])])) := by
  unfold build_huffman_tree
  set heap := ft.map (fun sw => (sw.2, [(sw.1, ([] : List Bool))])) with hheap
  have hlen : heap.length = ft.length := by rw [hheap]; simp
  have hsyms : heapSyms heap = ft.map Prod.fst := by
    rw [hheap]
    unfold heapSyms
    rw [List.map_map]
    have : (nodeSyms ∘ fun sw : Nat × Nat => (sw.2, [(sw.1, ([] : List Bool))])) =
        fun sw : Nat × Nat => [sw.1] := by
      funext sw
      rfl
    rw [this]
    exact flatten_map_singleton Prod.fst ft
  by_cases h1 : heap.length = 1
  · rw [if_pos h1]
    rcases hft : ft with _ | ⟨⟨s, wgt⟩, rest⟩
    · exact absurd hft hne
    · rcases rest with _ | ⟨q, qs⟩
      · refine ⟨(1, [(s, [false])]), ?_, ?_, ?_, ?_, ?_⟩
        · rw [hheap, hft]
          rfl
        · unfold nodeSyms
          simp
        · unfold PrefixFree
          simp
        · intro p hp
          simp only [List.mem_singleton] at hp
          subst hp
          simp
        · intro h
          rfl
      · exfalso
        rw [hheap, hft] at h1
        simp at h1
  · rw [if_neg h1]
    have hge : 1 ≤ heap.length := by
      rw [hlen]
      have := List.length_pos.mpr hne
      omega
    have hinv0 : ∀ nd ∈ heap, NodeInv nd := by
      intro nd hnd
      rw [hheap] at hnd
      simp only [List.mem_map] at hnd
      obtain ⟨sw, _, rfl⟩ := hnd
      refine ⟨by simp, ?_, by simp⟩
      unfold PrefixFree
      simp
    obtain ⟨hinv, hperm, hlen1⟩ := buildLoopF_inv heap.length heap hinv0
    have hone : (buildLoopF heap.length heap).length = 1 := hlen1 (by omega) hge
    rcases hbl : buildLoopF heap.length heap with _ | ⟨nd, brest⟩
    · rw [hbl] at hone
      simp at hone
    · have hbrest : brest = [] := by
        rw [hbl] at hone
        simp at hone
        exact hone
      subst hbrest
      have hndperm : (nodeSyms nd).Perm (ft.map Prod.fst) := by
        have hp := hperm
        rw [hbl] at hp
        have e1 : heapSyms [nd] = nodeSyms nd := by
          unfold heapSyms
          simp
        rw [e1, hsyms] at hp
        exact hp
      have hndinv : NodeInv nd := hinv nd (by rw [hbl]; simp)
      have hcount : nd.2.length = ft.length := by
        have e1 : (nodeSyms nd).length = nd.2.length := by
          unfold nodeSyms
          simp
        have e2 := hndperm.length_eq
        rw [e1] at e2
        rw [e2]
        simp
      refine ⟨nd, ?_, hndperm, hndinv.2.1, ?_, ?_⟩
      · rfl
      · intro p hp hcon
        have := hndinv.2.2 p hp hcon
        rw [hcount] at this
        omega
      · intro hcon
        rw [hlen] at h1
        exact absurd hcon h1

theorem freq_step_keys (acc : List (Nat × Nat)) (b : Nat) : ∀ x : Nat,
    (x ∈ ((if acc.any (fun p => p.1 == b) then
        acc.map (fun p => if p.1 = b then (p.1, p.2 + 1) else p)
      else acc ++ [(b, 1)]).map Prod.fst)
      ↔ x ∈ acc.map Prod.fst ∨ x = b) := by
  intro x
  by_cases hany : acc.any (fun p => p.1 == b)
  · rw [if_pos hany]
    have hkeys : (acc.map (fun p => if p.1 = b then (p.1, p.2 + 1) else p)).map Prod.fst =
        acc.map Prod.fst := by
      rw [List.map_map]
      have : (Prod.fst ∘ fun p : Nat × Nat => if p.1 = b then (p.1, p.2 + 1) else p) =
          Prod.fst := by
        funext p
        by_cases hp : p.1 = b <;> simp [hp]
      rw [this]
    rw [hkeys]
    have hbmem : b ∈ acc.map Prod.fst := by
      rw [List.any_eq_true] at hany
      obtain ⟨p, hp, hpb⟩ := hany
      simp only [beq_iff_eq] at hpb
      exact List.mem_map.mpr ⟨p, hp, hpb⟩
    constructor
    · intro h
      left
      exact h
    · rintro (h | rfl)
      · exact h
      · exact hbmem
  · rw [if_neg hany]
    simp

theorem freq_fold_keys (data : List Nat) : ∀ (acc : List (Nat × Nat)) (x : Nat),
    (x ∈ (List.foldl (fun acc b =>
        if acc.any (fun p => p.1 == b) then
          acc.map (fun p => if p.1 = b then (p.1, p.2 + 1) else p)
        else acc ++ [(b, 1)]) acc data).map Prod.fst
      ↔ x ∈ acc.map Prod.fst ∨ x ∈ data) := by
  induction data with
  | nil =>
    intro acc x
    simp
  | cons b bs ih =>
    intro acc x
    rw [List.foldl_cons, ih, freq_step_keys acc b x, List.mem_cons]
    tauto

/-- Membership in the frequency table's keys is membership in the
data. -/
theorem freq_keys_iff (data : List Nat) (x : Nat) :
    x ∈ (build_frequency_table data).map Prod.fst ↔ x ∈ data := by
  unfold build_frequency_table
  rw [freq_fold_keys data [] x]
  simp

theorem freq_nonempty {data : List Nat} (hne : data ≠ []) :
    build_frequency_table data ≠ [] := by
  rcases data with _ | ⟨b, bs⟩
  · exact absurd rfl hne
  · intro hcon
    have := (freq_keys_iff (b :: bs) b).mpr (by simp)
    rw [hcon] at this
    simp at this

theorem freq_step_nodup (acc : List (Nat × Nat)) (b : Nat)
    (h : (acc.map Prod.fst).Nodup) :
    (((if acc.any (fun p => p.1 == b) then
        acc.map (fun p => if p.1 = b then (p.1, p.2 + 1) else p)
      else acc ++ [(b, 1)])).map Prod.fst).Nodup := by
  by_cases hany : acc.any (fun p => p.1 == b)
  · rw [if_pos hany]
    have hkeys : (acc.map (fun p => if p.1 = b then (p.1, p.2 + 1) else p)).map Prod.fst =
        acc.map Prod.fst := by
      rw [List.map_map]
      have : (Prod.fst ∘ fun p : Nat × Nat => if p.1 = b then (p.1, p.2 + 1) else p) =
          Prod.fst := by
        funext p
        by_cases hp : p.1 = b <;> simp [hp]
      rw [this]
    rw [hkeys]
    exact h
  · rw [if_neg hany]
    have hbnot : b ∉ acc.map Prod.fst := by
      intro hcon
      obtain ⟨p, hp, hpb⟩ := List.mem_map.mp hcon
      rw [List.any_eq_true] at hany
      exact hany ⟨p, hp, by simp [hpb]⟩
    simp only [List.map_append, List.map_cons, List.map_nil]
    rw [List.nodup_append]
    refine ⟨h, by simp, ?_⟩
    intro a ha hb
    simp at hb
    subst hb
    exact hbnot ha

theorem freq_fold_nodup (data : List Nat) : ∀ (acc : List (Nat × Nat)),
    (acc.map Prod.fst).Nodup →
    ((List.foldl (fun acc b =>
        if acc.any (fun p => p.1 == b) then
          acc.map (fun p => if p.1 = b then (p.1, p.2 + 1) else p)
        else acc ++ [(b, 1)]) acc data).map Prod.fst).Nodup := by
  induction data with
  | nil =>
    intro acc h
    exact h
  | cons b bs ih =>
    intro acc h
    rw [List.foldl_cons]
    exact ih _ (freq_step_nodup acc b h)

theorem freq_keys_nodup (data : List Nat) :
    ((build_frequency_table data).map Prod.fst).Nodup := by
  unfold build_frequency_table
  exact freq_fold_nodup data [] (by simp)

end BMP.Huff

/-! ### Huffman encode/decode round trip -/

namespace BMP.Huff

theorem lookupCode_of_mem {codes : Tbl} {b : Nat} (h : b ∈ codes.map Prod.fst) :
    ∃ c, lookupCode codes b = some c ∧ (b, c) ∈ codes := by
  unfold lookupCode
  have hex : ∃ p ∈ codes, (p.1 == b) = true := by
    obtain ⟨p, hp, hpb⟩ := List.mem_map.mp h
    exact ⟨p, hp, by simp [hpb]⟩
  have hsome : (codes.find? (fun p => p.1 == b)).isSome := List.find?_isSome.mpr hex
  rcases hf : codes.find? (fun p => p.1 == b) with _ | p
  · rw [hf] at hsome
    simp at hsome
  · obtain ⟨p1, p2⟩ := p
    have hpb := List.find?_some hf
    simp only [beq_iff_eq] at hpb
    have hpmem := List.mem_of_find?_eq_some hf
    subst hpb
    refine ⟨p2, ?_, hpmem⟩
    rw [hf]
    rfl

theorem invLookup_some {codes : Tbl} (hpf : PrefixFree codes) {s : Nat} {c : List Bool}
    (hmem : (s, c) ∈ codes) : invLookup codes c = some s := by
  unfold invLookup
  have huniq : ∀ q ∈ codes, q.2 = c → q = (s, c) := by
    intro q hq hqc
    by_contra hne
    have hrel := List.Pairwise.forall prefixFree_symm hpf hq hmem hne
    apply hrel.1
    rw [hqc]
    exact IsPfx_refl c
  have hex : ∃ p ∈ codes.reverse, (p.2 == c) = true := by
    exact ⟨(s, c), List.mem_reverse.mpr hmem, by simp⟩
  have hsome : (codes.reverse.find? (fun p => p.2 == c)).isSome := List.find?_isSome.mpr hex
  rcases hf : codes.reverse.find? (fun p => p.2 == c) with _ | q
  · rw [hf] at hsome
    simp at hsome
  · have hqc := List.find?_some hf
    simp only [beq_iff_eq] at hqc
    have hqmem := List.mem_reverse.mp (List.mem_of_find?_eq_some hf)
    have : q = (s, c) := huniq q hqmem hqc
    subst this
    rw [hf]
    rfl

theorem invLookup_none {codes : Tbl} {c : List Bool} (h : ∀ p ∈ codes, p.2 ≠ c) :
    invLookup codes c = none := by
  unfold invLookup
  rw [List.find?_eq_none.mpr ?_]
  · rfl
  · intro x hx
    simp only [beq_iff_eq]
    exact h x (List.mem_reverse.mp hx)

theorem greedy_prefix_step (codes : Tbl) (hpf : PrefixFree codes) {s : Nat} {c : List Bool}
    (hmem : (s, c) ∈ codes) :
    ∀ c2 c1 rest, c1 ++ c2 = c → c2 ≠ [] →
      greedyDecode codes (c2 ++ rest) c1 = s :: greedyDecode codes rest [] := by
  intro c2
  induction c2 with
  | nil =>
    intro c1 rest h hne
    exact absurd rfl hne
  | cons bit more ih =>
    intro c1 rest h hne
    simp only [List.cons_append, greedyDecode]
    by_cases hmore : more = []
    · subst hmore
      have hc : c1 ++ [bit] = c := by simpa using h
      rw [hc]
      simp only [invLookup_some hpf hmem]
      rfl
    · have hnone : invLookup codes (c1 ++ [bit]) = none := by
        apply invLookup_none
        intro p hp hpc
        have hlenc : c.length = c1.length + 1 + more.length := by
          have := congrArg List.length h
          simp at this
          omega
        by_cases hps : p = (s, c)
        · subst hps
          have hc2 : c = c1 ++ [bit] := hpc
          rw [hc2] at hlenc
          have hlen2 : (c1 ++ [bit]).length = c1.length + 1 := by simp
          have hmlen : 0 < more.length := List.length_pos.mpr hmore
          omega
        · have hrel := List.Pairwise.forall prefixFree_symm hpf hp hmem hps
          apply hrel.1
          rw [hpc]
          refine ⟨more, ?_⟩
          rw [← h]
          simp
      simp only [hnone]
      have hassoc : c1 ++ [bit] ++ more = c := by
        rw [← h]
        simp
      exact ih (c1 ++ [bit]) rest hassoc hmore

theorem greedy_encodeData (codes : Tbl) (hpf : PrefixFree codes)
    (hne : ∀ p ∈ codes, p.2 ≠ []) :
    ∀ (data : List Nat) (bits : List Bool), encodeData codes data = some bits →
      greedyDecode codes bits [] = data := by
  intro data
  induction data with
  | nil =>
    intro bits h
    simp only [encodeData, Option.some_inj] at h
    subst h
    rfl
  | cons b bs ih =>
    intro bits h
    simp only [encodeData] at h
    rcases hl : lookupCode codes b with _ | c <;> rw [hl] at h
    · simp at h
    · rcases he : encodeData codes bs with _ | rest <;> rw [he] at h
      · simp at h
      · simp only [Option.some_inj] at h
        subst h
        have hmem : (b, c) ∈ codes := by
          unfold lookupCode at hl
          rcases hf : codes.find? (fun p => p.1 == b) with _ | p <;> rw [hf] at hl
          · simp at hl
          · obtain ⟨p1, p2⟩ := p
            simp at hl
            have h1 := List.find?_some hf
            simp only [beq_iff_eq] at h1
            have h2 := List.mem_of_find?_eq_some hf
            subst h1
            subst hl
            exact h2
        have hcne : c ≠ [] := hne (b, c) hmem
        rw [greedy_prefix_step codes hpf hmem c [] rest (by simp) hcne]
        rw [ih rest he]

theorem encodeData_some (codes : Tbl) : ∀ data : List Nat,
    (∀ b ∈ data, ∃ c, lookupCode codes b = some c) →
    ∃ bits, encodeData codes data = some bits := by
  intro data
  induction data with
  | nil => exact fun _ => ⟨[], rfl⟩
  | cons b bs ih =>
    intro h
    obtain ⟨c, hc⟩ := h b (by simp)
    obtain ⟨rest, hrest⟩ := ih (fun b' hb' => h b' (by simp [hb']))
    exact ⟨c ++ rest, by simp only [encodeData, hc, hrest]⟩

/-- Huffman compression of a byte buffer always succeeds, and its
output decompresses back to the input. -/
theorem compress_huffman_spec (x : List Nat) (hb : ∀ b ∈ x, b < 256) :
    ∃ out meta, compress_huffman x = some (out, meta)
      ∧ decompress_huffman out meta = some x := by
  by_cases h100 : x.length < 100
  · refine ⟨x, { compressed := false }, ?_, rfl⟩
    unfold compress_huffman
    rw [if_pos h100]
  · have hxne : x ≠ [] := by
      intro hcon
      rw [hcon] at h100
      simp at h100
    have hftne : build_frequency_table x ≠ [] := freq_nonempty hxne
    obtain ⟨nd, hnd, hperm, hpf, hcodes_ne, hsingle⟩ :=
      build_huffman_tree_spec (build_frequency_table x) hftne
    have hlookup : ∀ b ∈ x, ∃ c, lookupCode nd.2 b = some c := by
      intro b hbx
      have h1 : b ∈ (build_frequency_table x).map Prod.fst := (freq_keys_iff x b).mpr hbx
      have h2 : b ∈ nodeSyms nd := hperm.mem_iff.mpr h1
      obtain ⟨c, hc, _⟩ := lookupCode_of_mem h2
      exact ⟨c, hc⟩
    obtain ⟨bits, hbits⟩ := encodeData_some nd.2 x hlookup
    have hbits' : encodeData (build_huffman_codes nd) x = some bits := hbits
    have hcount : nd.2.length < 65536 := by
      have e1 : (nodeSyms nd).length = nd.2.length := by
        unfold nodeSyms
        simp
      have e2 := hperm.length_eq
      have hkeysnodup := freq_keys_nodup x
      have hkeyslt : ∀ k ∈ (build_frequency_table x).map Prod.fst, k < 256 := by
        intro k hk
        exact hb k ((freq_keys_iff x k).mp hk)
      have hsub : ((build_frequency_table x).map Prod.fst).toFinset ⊆ Finset.range 256 := by
        intro k hk
        rw [List.mem_toFinset] at hk
        rw [Finset.mem_range]
        exact hkeyslt k hk
      have hcard := Finset.card_le_card hsub
      rw [List.toFinset_card_of_nodup hkeysnodup, Finset.card_range] at hcard
      omega
    unfold compress_huffman
    rw [if_neg h100]
    simp only [hnd, hbits']
    have hdeser : deserialize_tree (serialize_tree (build_huffman_codes nd)) =
        some nd.2 := deserialize_serialize nd.2 hcount
    by_cases hsize : x.length ≤ (efficient_binary_string_to_bytes bits).1.length +
        (serialize_tree (build_huffman_codes nd)).length + 10
    · rw [if_pos hsize]
      exact ⟨x, { compressed := false }, rfl, rfl⟩
    · rw [if_neg hsize]
      refine ⟨(efficient_binary_string_to_bytes bits).1,
        { huffman_codes := serialize_tree (build_huffman_codes nd),
          padding := (efficient_binary_string_to_bytes bits).2,
          compressed := true }, rfl, ?_⟩
      unfold decompress_huffman
      rw [if_neg (by simp)]
      simp only [hdeser]
      rw [unpack_pack bits]
      rw [greedy_encodeData nd.2 hpf hcodes_ne x bits hbits]

/-- The combined codec: all bytes of the LZ77 stage's output are below
256 when the input is a byte buffer. -/
theorem lz_output_bytes (data : List Nat) (hb : ∀ b ∈ data, b < 256) {w l : Nat}
    (hl : 1 ≤ l) (hw : w ≤ 32767) (hls : l ≤ 32767) :
    ∀ n dpos, data.length ≤ dpos + n →
      ∀ b ∈ LZ.compressLoop data w l dpos, b < 256 := by
  intro n
  induction n with
  | zero =>
    intro dpos h b hmem
    rw [LZ.compressLoop_stop (by omega)] at hmem
    cases hmem
  | succ m ih =>
    intro dpos h b hmem
    by_cases hd : dpos < data.length
    · obtain ⟨off, flen, hfind, hlo, hop, how, hfl, hbound, hz, hagree⟩ :=
        LZ.find_longest_match_spec data hl hd
      rw [LZ.compressLoop_unfold hd, hfind] at hmem
      simp only [Prod.fst, Prod.snd] at hmem
      rcases List.mem_append.mp hmem with htok | hrest
      · unfold LZ.variable_length_encode at htok
        rcases List.mem_append.mp htok with h1 | h1
        · exact LZ.encodeValue_bytes (by omega) b h1
        · exact LZ.encodeValue_bytes (by omega) b h1
      · rcases List.mem_cons.mp hrest with rfl | h2
        · rcases hnc : data.get? (dpos + flen) with _ | v
          · simp
          · simp only [Option.getD_some]
            exact hb v (List.get?_mem hnc)
        · exact ih (dpos + flen + 1) (by omega) b h2
    · rw [LZ.compressLoop_stop (by omega)] at hmem
      cases hmem

/-- Round trip of the combined LZ77 + Huffman codec on byte buffers
containing no `0xFF`. -/
theorem combined_roundtrip (data : List Nat) (hb : ∀ b ∈ data, b < 256)
    (hff : 255 ∉ data) :
    ∃ out meta, combined_compress data = some (out, meta)
      ∧ combined_decompress out meta = some data := by
  unfold combined_compress
  have hlzbytes : ∀ b ∈ (LZ.compress_lz77 data 4096 128).1, b < 256 := by
    unfold LZ.compress_lz77
    by_cases h50 : data.length < 50
    · rw [if_pos h50]
      exact hb
    · rw [if_neg h50]
      by_cases hshort : (LZ.compressLoop data 4096 128 0).length < data.length
      · simp only [if_pos hshort]
        exact lz_output_bytes data hb (by omega) (by omega) (by omega)
          data.length 0 (by omega)
      · simp only [if_neg hshort]
        exact hb
  obtain ⟨hout, hmeta, hcomp, hdecomp⟩ := compress_huffman_spec
    (LZ.compress_lz77 data 4096 128).1 hlzbytes
  simp only [hcomp]
  refine ⟨hout, { lz77 := (LZ.compress_lz77 data 4096 128).2, huffman := hmeta }, rfl, ?_⟩
  unfold combined_decompress
  simp only [hdecomp]
  exact LZ.lz77_roundtrip data (by omega) (by omega) (by omega) hff

end BMP.Huff

/-! ### Remaining characterizations -/

namespace BMP.LZ

/-- When the LZ77 stage marks its output as compressed, and what it
returns otherwise. -/
theorem compress_lz77_cases (x : List Nat) (w l : Nat) :
    ((compress_lz77 x w l).2.compressed = true ↔
      (50 ≤ x.length ∧ (compressLoop x w l 0).length < x.length))
    ∧ ((compress_lz77 x w l).2.compressed = true →
        (compress_lz77 x w l).1 = compressLoop x w l 0)
    ∧ ((compress_lz77 x w l).2.compressed = false → (compress_lz77 x w l).1 = x) := by
  unfold compress_lz77
  by_cases h50 : x.length < 50
  · rw [if_pos h50]
    refine ⟨?_, ?_, ?_⟩
    · simp
      omega
    · intro hcon
      simp at hcon
    · intro _
      rfl
  · rw [if_neg h50]
    by_cases hshort : (compressLoop x w l 0).length < x.length
    · simp only [if_pos hshort]
      refine ⟨?_, ?_, ?_⟩
      · simp
        omega
      · intro _
        trivial
      · intro hcon
        simp at hcon
    · simp only [if_neg hshort]
      refine ⟨?_, ?_, ?_⟩
      · simp
        omega
      · intro hcon
        simp at hcon
      · intro _
        trivial

/-- Offsets and lengths with equal maximal run length: the scan keeps
the first index in scan order, i.e. the smallest start index, hence the
largest offset. -/
theorem find_longest_match_first_max (data : List Nat) (pos w l off len : Nat)
    (nc : Option Nat)
    (hf : find_longest_match data pos w l = (off, len, nc)) (hlen : 0 < len) :
    pos - w ≤ pos - off ∧ pos - off < pos
    ∧ len = matchLenAt data (pos - off) pos (min (pos + l) data.length)
    ∧ (∀ j, pos - w ≤ j → j < pos →
        matchLenAt data j pos (min (pos + l) data.length) ≤ len)
    ∧ (∀ j, pos - w ≤ j → j < pos - off →
        matchLenAt data j pos (min (pos + l) data.length) < len) := by
  simp only [find_longest_match] at hf
  split at hf
  · simp only [Prod.mk.injEq] at hf
    omega
  · split at hf
    · simp only [Prod.mk.injEq] at hf
      omega
    · next h1 h2 =>
      rcases scanBest_range'_spec data pos (min (pos + l) data.length) (pos - w)
          (pos - (pos - w)) with ⟨heq, _⟩ | ⟨i, hi1, hi2, heq, hposm, hmax, hfirst⟩
      · rw [heq] at hf
        simp only [Prod.mk.injEq] at hf
        omega
      · rw [heq] at hf
        simp only [Prod.mk.injEq] at hf
        obtain ⟨hoff, hlen2, _⟩ := hf
        have hipos : i < pos := by omega
        have hieq : pos - off = i := by omega
        rw [hieq]
        subst hlen2
        refine ⟨by omega, by omega, rfl, ?_, ?_⟩
        · intro j hj1 hj2
          exact hmax j (by omega) (by omega)
        · intro j hj1 hj2
          exact hfirst j (by omega) (by omega)

/-- A returned match with positive length never reaches the current
position: its length is bounded by its offset, which is bounded by the
position. -/
theorem find_longest_match_no_overlap (data : List Nat) (pos w l off len : Nat)
    (nc : Option Nat)
    (hf : find_longest_match data pos w l = (off, len, nc)) (hlen : 0 < len) :
    0 < len ∧ len ≤ off ∧ off ≤ pos := by
  simp only [find_longest_match] at hf
  split at hf
  · simp only [Prod.mk.injEq] at hf
    omega
  · split at hf
    · simp only [Prod.mk.injEq] at hf
      omega
    · next h1 h2 =>
      rcases scanBest_range'_spec data pos (min (pos + l) data.length) (pos - w)
          (pos - (pos - w)) with ⟨heq, _⟩ | ⟨i, hi1, hi2, heq, hposm, hmax, hfirst⟩
      · rw [heq] at hf
        simp only [Prod.mk.injEq] at hf
        omega
      · rw [heq] at hf
        simp only [Prod.mk.injEq] at hf
        obtain ⟨hoff, hlen2, _⟩ := hf
        have hipos : i < pos := by omega
        obtain ⟨_, hbound⟩ := matchLenAt_spec data (min (pos + l) data.length) hipos
        omega

end BMP.LZ

namespace BMP.Huff

/-- Huffman compression never fails, returns its input verbatim when
not applied, applies only to inputs of 100 bytes or more, and applies
exactly when the packed bytes plus the serialized table plus 10 are
strictly smaller than the input. -/
theorem compress_huffman_exists (x : List Nat) :
    ∃ out meta, compress_huffman x = some (out, meta)
      ∧ (meta.compressed = false → out = x)
      ∧ (meta.compressed = true → 100 ≤ x.length ∧
          out.length + meta.huffman_codes.length + 10 < x.length)
      ∧ (x.length < 100 → meta.compressed = false) := by
  by_cases h100 : x.length < 100
  · refine ⟨x, { compressed := false }, ?_, fun _ => rfl, ?_, fun _ => rfl⟩
    · unfold compress_huffman
      rw [if_pos h100]
    · intro hcon
      simp at hcon
  · have hxne : x ≠ [] := by
      intro hcon
      rw [hcon] at h100
      simp at h100
    have hftne : build_frequency_table x ≠ [] := freq_nonempty hxne
    obtain ⟨nd, hnd, hperm, hpf, hcodes_ne, hsingle⟩ :=
      build_huffman_tree_spec (build_frequency_table x) hftne
    have hlookup : ∀ b ∈ x, ∃ c, lookupCode nd.2 b = some c := by
      intro b hbx
      have h1 : b ∈ (build_frequency_table x).map Prod.fst := (freq_keys_iff x b).mpr hbx
      have h2 : b ∈ nodeSyms nd := hperm.mem_iff.mpr h1
      obtain ⟨c, hc, _⟩ := lookupCode_of_mem h2
      exact ⟨c, hc⟩
    obtain ⟨bits, hbits⟩ := encodeData_some nd.2 x hlookup
    have hbits' : encodeData (build_huffman_codes nd) x = some bits := hbits
    unfold compress_huffman
    rw [if_neg h100]
    simp only [hnd, hbits']
    by_cases hsize : x.length ≤ (efficient_binary_string_to_bytes bits).1.length +
        (serialize_tree (build_huffman_codes nd)).length + 10
    · rw [if_pos hsize]
      refine ⟨x, { compressed := false }, rfl, fun _ => rfl, ?_, fun _ => rfl⟩
      intro hcon
      simp at hcon
    · rw [if_neg hsize]
      refine ⟨(efficient_binary_string_to_bytes bits).1,
        { huffman_codes := serialize_tree (build_huffman_codes nd),
          padding := (efficient_binary_string_to_bytes bits).2,
          compressed := true }, rfl, ?_, ?_, ?_⟩
      · intro hcon
        simp at hcon
      · intro _
        constructor
        · omega
        · simp only []
          omega
      · intro hcon
        omega

theorem freq_single {data : List Nat} {b : Nat} (hmem : b ∈ data)
    (hall : ∀ y ∈ data, y = b) :
    (build_frequency_table data).map Prod.fst = [b] := by
  have hkeys : ∀ x, x ∈ (build_frequency_table data).map Prod.fst ↔ x = b := by
    intro x
    rw [freq_keys_iff]
    constructor
    · exact fun h => hall x h
    · rintro rfl
      exact hmem
  have hnd := freq_keys_nodup data
  rcases hk : (build_frequency_table data).map Prod.fst with _ | ⟨k, rest⟩
  · exfalso
    have hbm := (hkeys b).mpr rfl
    rw [hk] at hbm
    cases hbm
  · have hkb : k = b := (hkeys k).mp (by rw [hk]; simp)
    subst hkb
    rcases hr : rest with _ | ⟨r2, rest2⟩
    · rfl
    · exfalso
      have hr2 : r2 = k := (hkeys r2).mp (by rw [hk, hr]; simp)
      rw [hk, hr] at hnd
      subst hr2
      simp at hnd

/-- The full C6 content: on a nonempty buffer the built code table
covers every byte of the buffer with a nonempty code, is prefix-free,
and maps the symbol of a single-valued buffer to the one-bit code
`[false]` (the string `"0"`). -/
theorem huffman_table_spec (data : List Nat) (hne : data ≠ []) :
    ∃ nd, build_huffman_tree (build_frequency_table data) = some nd
      ∧ (∀ b ∈ data, ∃ c, (b, c) ∈ build_huffman_codes nd ∧ c ≠ [])
      ∧ PrefixFree (build_huffman_codes nd)
      ∧ (∀ b, b ∈ data → (∀ y ∈ data, y = b) →
          build_huffman_codes nd = [(b, [false])]) := by
  have hftne : build_frequency_table data ≠ [] := freq_nonempty hne
  obtain ⟨nd, hnd, hperm, hpf, hcodes_ne, hsingle⟩ :=
    build_huffman_tree_spec (build_frequency_table data) hftne
  refine ⟨nd, hnd, ?_, hpf, ?_⟩
  · intro b hbx
    have h1 : b ∈ (build_frequency_table data).map Prod.fst := (freq_keys_iff data b).mpr hbx
    have h2 : b ∈ nodeSyms nd := hperm.mem_iff.mpr h1
    obtain ⟨p, hp, hpb⟩ := List.mem_map.mp h2
    refine ⟨p.2, ?_, hcodes_ne p hp⟩
    have : p = (b, p.2) := by
      obtain ⟨p1, p2⟩ := p
      simp at hpb
      rw [hpb]
    rw [← this]
    exact hp
  · intro b hbmem hall
    have hkeys1 : (build_frequency_table data).map Prod.fst = [b] := freq_single hbmem hall
    have hftlen : (build_frequency_table data).length = 1 := by
      have := congrArg List.length hkeys1
      simpa using this
    have hnd2 := hsingle hftlen
    rcases hft : build_frequency_table data with _ | ⟨p, prest⟩
    · exact absurd hft hftne
    · have hprest : prest = [] := by
        rw [hft] at hftlen
        simp at hftlen
        exact hftlen
      subst hprest
      have hp1 : p.1 = b := by
        rw [hft] at hkeys1
        simp at hkeys1
        exact hkeys1
      rw [hft] at hnd2
      unfold build_huffman_codes
      rw [hnd2]
      simp [hp1]

end BMP.Huff

/-! ### Claim theorems -/

namespace BMP

/-- Composition the round-trip claims are about: compress with the
combined codec, then decompress the output with the returned
metadata. -/
def combinedRoundTrip (data : List Nat) : Option (List Nat) :=
  match Huff.combined_compress data with
  | none => none
  | some p => Huff.combined_decompress p.1 p.2

/-- Input refuting the unrestricted round trip: 49 copies of `A`
followed by a genuine `0xFF` data byte right after a match. -/
def c1Input : List Nat := List.replicate 49 65 ++ [255]

/-- Input whose token stream both loses `0xFF` literals and then makes
the decoder read out of range. -/
def c2Input : List Nat := List.replicate 60 255

/-- A container file whose `payload_length` prefix declares 5 bytes
while only 2 remain: `width = 1`, `height = 1`, `channels = 3`, empty
header blob, empty metadata blob, then `payload_length = 5` and the two
payload bytes `9, 9`. -/
def c3File : List Nat :=
  [1, 0, 0, 0, 1, 0, 0, 0, 3, 0, 0, 0, 0, 0, 0, 0, 0, 5, 0, 0, 0, 9, 9]

end BMP

set_option maxRecDepth 100000

/-- C1 (counterexample): the round trip `combined_decompress ∘
combined_compress` is not the identity on every byte buffer: on 49
copies of `A` followed by a genuine `0xFF` byte, the LZ77 stage is
applied, its decoder drops the `0xFF` (mistaking it for the
end-of-input sentinel), and the round trip returns the 49 `A`s only. -/
theorem C1_roundtrip_counterexample :
    BMP.combinedRoundTrip BMP.c1Input = some (List.replicate 49 65)
    ∧ BMP.combinedRoundTrip BMP.c1Input ≠ some BMP.c1Input := by
  constructor
  · rfl
  · decide

/-- C1 (amended): for every byte buffer containing no `0xFF` byte
(including the empty and single-byte buffers and buffers longer than
32767 bytes), decompressing the combined codec's output with the
metadata it returned reproduces the buffer exactly. -/
theorem C1_combined_roundtrip (data : List Nat) (hb : ∀ b ∈ data, b < 256)
    (hff : 255 ∉ data) :
    BMP.combinedRoundTrip data = some data := by
  obtain ⟨out, meta, hcomp, hdec⟩ := BMP.Huff.combined_roundtrip data hb hff
  unfold BMP.combinedRoundTrip
  rw [hcomp]
  exact hdec

/-- C1 (witness): the amended round trip at the concrete buffer
`[1, 2, 3]`. -/
theorem C1_combined_roundtrip_witness :
    (255 : Nat) ∉ [1, 2, 3]
    ∧ BMP.combinedRoundTrip [1, 2, 3] = some [1, 2, 3] :=
  ⟨by decide, C1_combined_roundtrip [1, 2, 3] (by decide) (by decide)⟩

/-- C2 (counterexample): on the buffer of 60 `0xFF` bytes the LZ77
stage is applied and genuine `0xFF` literals are emitted, but
decompression does not return a buffer missing those bytes — it fails
outright (Python `IndexError` from `result[-offset]` on a too-short
output buffer, modelled as `none`), so no reconstructed buffer
exists. -/
theorem C2_ff_counterexample :
    (BMP.LZ.compress_lz77 BMP.c2Input 4096 128).2.compressed = true
    ∧ 1 ≤ BMP.LZ.ffCount BMP.c2Input 4096 128 0
    ∧ BMP.LZ.decompress_lz77 (BMP.LZ.compress_lz77 BMP.c2Input 4096 128).1
        (BMP.LZ.compress_lz77 BMP.c2Input 4096 128).2 = none := by
  refine ⟨by rfl, by decide, by rfl⟩

/-- C2 (amended): whenever the LZ77 stage is applied and its token
stream carries at least one genuine `0xFF` literal, decompression never
reproduces the input: it either fails outright, or returns a buffer
shorter than the input by exactly the number of genuine `0xFF` literals
(each such byte is dropped). -/
theorem C2_ff_literal_lost (data : List Nat)
    (happ : (BMP.LZ.compress_lz77 data 4096 128).2.compressed = true)
    (hffc : 1 ≤ BMP.LZ.ffCount data 4096 128 0) :
    BMP.LZ.decompress_lz77 (BMP.LZ.compress_lz77 data 4096 128).1
        (BMP.LZ.compress_lz77 data 4096 128).2 ≠ some data
    ∧ ∀ out, BMP.LZ.decompress_lz77 (BMP.LZ.compress_lz77 data 4096 128).1
          (BMP.LZ.compress_lz77 data 4096 128).2 = some out →
        out.length + BMP.LZ.ffCount data 4096 128 0 = data.length := by
  have h2 := (BMP.LZ.compress_lz77_cases data 4096 128).2.1 happ
  have hdec : BMP.LZ.decompress_lz77 (BMP.LZ.compress_lz77 data 4096 128).1
      (BMP.LZ.compress_lz77 data 4096 128).2 =
      BMP.LZ.decompressLoop (BMP.LZ.compressLoop data 4096 128 0) 0 [] := by
    unfold BMP.LZ.decompress_lz77
    rw [if_neg (by rw [happ]; simp), h2]
  have hmain := @BMP.LZ.lzCountMain data 4096 128 (by omega) (by omega) (by omega)
    data.length 0 [] [] (by omega)
  simp only [List.nil_append, List.length_nil] at hmain
  rcases hmain with hnone | ⟨out, hout, hlen⟩
  · rw [hdec, hnone]
    constructor
    · simp
    · intro out hcon
      exact absurd hcon (by simp)
  · rw [hdec, hout]
    constructor
    · intro hcon
      rw [Option.some_inj] at hcon
      subst hcon
      omega
    · intro out' hout'
      rw [Option.some_inj] at hout'
      subst hout'
      omega

/-- C2 (witness): the amended claim at the concrete buffer of 49 `A`s
followed by `0xFF`, where decompression succeeds and returns a buffer
that is one byte short. -/
theorem C2_ff_literal_lost_witness :
    ((BMP.LZ.compress_lz77 BMP.c1Input 4096 128).2.compressed = true
      ∧ 1 ≤ BMP.LZ.ffCount BMP.c1Input 4096 128 0)
    ∧ BMP.LZ.decompress_lz77 (BMP.LZ.compress_lz77 BMP.c1Input 4096 128).1
        (BMP.LZ.compress_lz77 BMP.c1Input 4096 128).2 ≠ some BMP.c1Input :=
  ⟨⟨by rfl, by decide⟩, (C2_ff_literal_lost BMP.c1Input (by rfl) (by decide)).1⟩

/-- C3 (code behaviour at the failing input): the container read does
not fail on a `payload_length` prefix exceeding the remaining bytes; it
returns a record whose payload is silently shortened from the declared
5 bytes to the 2 that remain, with no structured decode error. -/
theorem C3_truncated_payload :
    (BMP.c3File.drop 17).take 4 = [5, 0, 0, 0]
    ∧ BMP.Container.load_compressed_file BMP.c3File =
        some ([9, 9],
          { width := 1, height := 1, channels := 3, header_data := [],
            encoding_metadata := [] }) :=
  ⟨rfl, rfl⟩

/-- C4 (code behaviour at the failing inputs): `decompress_lz77` with
metadata marked compressed performs no validation before indexing: a
token truncated mid-pair makes it read `data[pos + 1]` past the end
(`IndexError`), an offset larger than the reconstructed buffer makes
`result[-offset]` fail (`IndexError`), and a missing literal byte makes
it append `None` (`TypeError`); all are uncaught exceptions, modelled
as `none`, not typed decode errors. -/
theorem C4_unvalidated_decode :
    BMP.LZ.decompress_lz77 [128] { compressed := true } = none
    ∧ BMP.LZ.decompress_lz77 [5, 1, 65] { compressed := true } = none
    ∧ BMP.LZ.decompress_lz77 [0, 0] { compressed := true } = none :=
  ⟨rfl, rfl, rfl⟩

/-- C5 (counterexample): at `data = [1, 1, 1]`, position 2, both window
indices 0 and 1 attain the maximal run length 1, yet
`find_longest_match` returns offset 2 — the candidate with the
*largest* offset (smallest index) — not the claimed smallest offset
1. -/
theorem C5_tiebreak_counterexample :
    BMP.LZ.find_longest_match [1, 1, 1] 2 4096 128 = (2, 1, none)
    ∧ BMP.LZ.matchLenAt [1, 1, 1] 0 2 (min (2 + 128) ([1, 1, 1] : List Nat).length) = 1
    ∧ BMP.LZ.matchLenAt [1, 1, 1] 1 2 (min (2 + 128) ([1, 1, 1] : List Nat).length) = 1 := by
  refine ⟨by decide, by decide, by decide⟩

/-- C5 (amended): when several window start indices achieve the same
maximal match length, `find_longest_match` keeps the first candidate in
scan order, which is the smallest start index and hence the *largest*
offset: the returned offset marks the first index attaining the
maximum, every window index attains at most the returned length, and
every earlier index attains strictly less. -/
theorem C5_tiebreak_first_in_scan (data : List Nat) (pos w l off len : Nat)
    (nc : Option Nat)
    (hf : BMP.LZ.find_longest_match data pos w l = (off, len, nc)) (hlen : 0 < len) :
    pos - w ≤ pos - off ∧ pos - off < pos
    ∧ len = BMP.LZ.matchLenAt data (pos - off) pos (min (pos + l) data.length)
    ∧ (∀ j, pos - w ≤ j → j < pos →
        BMP.LZ.matchLenAt data j pos (min (pos + l) data.length) ≤ len)
    ∧ (∀ j, pos - w ≤ j → j < pos - off →
        BMP.LZ.matchLenAt data j pos (min (pos + l) data.length) < len) :=
  BMP.LZ.find_longest_match_first_max data pos w l off len nc hf hlen

/-- C5 (witness): the amended tie-break claim at `[1, 1, 1]`,
position 2. -/
theorem C5_tiebreak_witness :
    (BMP.LZ.find_longest_match [1, 1, 1] 2 4096 128 = (2, 1, none) ∧ (0 : Nat) < 1)
    ∧ (2 - 4096 ≤ 2 - 2 ∧ 2 - 2 < 2
        ∧ 1 = BMP.LZ.matchLenAt [1, 1, 1] (2 - 2) 2 (min (2 + 128) ([1, 1, 1] : List Nat).length)) :=
  ⟨⟨by decide, by decide⟩,
    let h := C5_tiebreak_first_in_scan [1, 1, 1] 2 4096 128 2 1 none (by decide) (by decide)
    ⟨h.1, h.2.1, h.2.2.1⟩⟩

/-- C6: for every nonempty byte buffer, the built Huffman code table
assigns every distinct byte of the buffer a nonempty bit string, no
assigned code is a prefix of any other assigned code, and a buffer with
exactly one distinct byte value maps that symbol to the one-bit code
`"0"` (here `[false]`). -/
theorem C6_prefix_free_codes (data : List Nat) (hne : data ≠ []) :
    ∃ nd, BMP.Huff.build_huffman_tree (BMP.Huff.build_frequency_table data) = some nd
      ∧ (∀ b ∈ data, ∃ c, (b, c) ∈ BMP.Huff.build_huffman_codes nd ∧ c ≠ [])
      ∧ BMP.Huff.PrefixFree (BMP.Huff.build_huffman_codes nd)
      ∧ (∀ b, b ∈ data → (∀ y ∈ data, y = b) →
          BMP.Huff.build_huffman_codes nd = [(b, [false])]) :=
  BMP.Huff.huffman_table_spec data hne

/-- C6 (witness): on the single-symbol buffer `[7, 7]` the built table
maps 7 to the one-bit code `"0"`. -/
theorem C6_prefix_free_codes_witness :
    ([7, 7] : List Nat) ≠ []
    ∧ (BMP.Huff.build_huffman_tree (BMP.Huff.build_frequency_table [7, 7])).map
        BMP.Huff.build_huffman_codes = some [(7, [false])] := by
  refine ⟨by decide, ?_⟩
  obtain ⟨nd, hnd, _, _, hsingle⟩ := C6_prefix_free_codes [7, 7] (by decide)
  rw [hnd]
  simp only [Option.map_some']
  rw [hsingle 7 (by decide) (by decide)]

/-- C7: for every valid code table (at most 256 entries, symbols below
256, nonempty codes of at most 255 bits), deserializing the serialized
table gives back exactly the table. -/
theorem C7_table_roundtrip (codes : BMP.Huff.Tbl) (h1 : codes.length ≤ 256)
    (h2 : ∀ sc ∈ codes, sc.1 < 256 ∧ 1 ≤ sc.2.length ∧ sc.2.length ≤ 255) :
    BMP.Huff.deserialize_tree (BMP.Huff.serialize_tree codes) = some codes :=
  BMP.Huff.deserialize_serialize codes (by omega)

/-- C7 (witness): the round trip on a concrete three-entry table with a
multi-byte code. -/
theorem C7_table_roundtrip_witness :
    ([(65, [true, false, true]), (66, [false]),
        (200, List.replicate 11 true)] : BMP.Huff.Tbl).length ≤ 256
    ∧ BMP.Huff.deserialize_tree (BMP.Huff.serialize_tree
        [(65, [true, false, true]), (66, [false]), (200, List.replicate 11 true)]) =
      some [(65, [true, false, true]), (66, [false]), (200, List.replicate 11 true)] :=
  ⟨by decide,
    C7_table_roundtrip
      [(65, [true, false, true]), (66, [false]), (200, List.replicate 11 true)]
      (by decide) (by decide)⟩

/-- C8: the LZ77 stage reports applied exactly when the input has at
least 50 bytes and the token stream is strictly shorter than the input,
and otherwise returns its input verbatim; the Huffman stage never
fails, reports applied only when the input has at least 100 bytes and
the packed bytes plus serialized table plus 10 are strictly smaller
than the input, and otherwise returns its input verbatim. -/
theorem C8_shrink_or_fallback (x : List Nat) (w l : Nat) :
    ((BMP.LZ.compress_lz77 x w l).2.compressed = true ↔
      (50 ≤ x.length ∧ (BMP.LZ.compressLoop x w l 0).length < x.length))
    ∧ ((BMP.LZ.compress_lz77 x w l).2.compressed = false →
        (BMP.LZ.compress_lz77 x w l).1 = x)
    ∧ ∃ out meta, BMP.Huff.compress_huffman x = some (out, meta)
        ∧ (meta.compressed = false → out = x)
        ∧ (meta.compressed = true → 100 ≤ x.length ∧
            out.length + meta.huffman_codes.length + 10 < x.length)
        ∧ (x.length < 100 → meta.compressed = false) :=
  ⟨(BMP.LZ.compress_lz77_cases x w l).1, (BMP.LZ.compress_lz77_cases x w l).2.2,
    BMP.Huff.compress_huffman_exists x⟩

/-- C9: values below 128 encode in one byte and values of 128 and more
in the two bytes `(value >> 8) | 0x80` and `value & 0xFF`, and decoding
an encoded pair recovers it exactly and advances past exactly the
emitted bytes, for offsets and lengths up to 32767. -/
theorem C9_varint_roundtrip (o l : Nat) (ho : o ≤ 32767) (hl : l ≤ 32767)
    (rest : List Nat) :
    (BMP.LZ.encodeValue o = if o < 128 then [o] else [(o >>> 8) ||| 0x80, o &&& 0xFF])
    ∧ ((BMP.LZ.encodeValue o).length = if o < 128 then 1 else 2)
    ∧ ((BMP.LZ.encodeValue l).length = if l < 128 then 1 else 2)
    ∧ BMP.LZ.variable_length_decode (BMP.LZ.variable_length_encode o l ++ rest) 0 =
        some (o, l, (BMP.LZ.variable_length_encode o l).length) := by
  refine ⟨rfl, BMP.LZ.encodeValue_length o, BMP.LZ.encodeValue_length l, ?_⟩
  have h := BMP.LZ.variable_length_decode_encode [] rest ho hl
  simpa using h

/-- C9 (witness): the pair `(300, 5)` round trips through the
variable-length encoding with a trailing byte present. -/
theorem C9_varint_roundtrip_witness :
    (300 : Nat) ≤ 32767
    ∧ BMP.LZ.variable_length_decode (BMP.LZ.variable_length_encode 300 5 ++ [9]) 0 =
        some (300, 5, (BMP.LZ.variable_length_encode 300 5).length) :=
  ⟨by decide, (C9_varint_roundtrip 300 5 (by decide) (by decide) [9]).2.2.2⟩

/-- C10: a match returned with positive length satisfies
`0 < length ≤ offset ≤ position`: it never reaches the current
position, so an emitted token's back-copy never overlaps its own output
region. -/
theorem C10_no_overlap (data : List Nat) (pos w l off len : Nat) (nc : Option Nat)
    (hf : BMP.LZ.find_longest_match data pos w l = (off, len, nc)) (hlen : 0 < len) :
    0 < len ∧ len ≤ off ∧ off ≤ pos :=
  BMP.LZ.find_longest_match_no_overlap data pos w l off len nc hf hlen

/-- C10 (witness): the bounds at `[1, 1, 2, 1, 1]`, position 3, where
the returned match is `(offset 3, length 2)`. -/
theorem C10_no_overlap_witness :
    BMP.LZ.find_longest_match [1, 1, 2, 1, 1] 3 4096 128 = (3, 2, none)
    ∧ ((0 : Nat) < 2 ∧ 2 ≤ 3 ∧ 3 ≤ 3) :=
  ⟨by decide,
    C10_no_overlap [1, 1, 2, 1, 1] 3 4096 128 3 2 none (by decide) (by decide)⟩
